import Mathlib

/-!
Verification of the keyword-extraction core of `Backend/analyzer.py`
(3D-Word-Cloud backend).

The Python source is shallowly embedded below:

* strings are `String`/`List Char`; Python's ASCII regex character classes
  (`\s`, `\w`, `\d`, `[a-zA-Z]`) are modelled on the ASCII range;
* each `re.sub(pat, repl, text)` call is modelled by a left-to-right scanner
  implementing the leftmost-match semantics of the concrete pattern used by
  the source (the scanners were cross-validated against CPython `re` on the
  patterns in question);
* Python numbers (`int`, `float` division, `round(x, 3)`) are modelled
  exactly over `ℚ`, with `round` as round-half-to-even;
* the external NLTK tokenizers `word_tokenize` / `sent_tokenize` are opaque
  statistical models and are taken as parameters (`wtok` / `stok`);
* the sklearn `TfidfVectorizer` is embedded by its configured feature
  extraction (token pattern, stop-word filtering, 1..2-grams, `min_df`,
  `max_df`, `max_features`), with the numeric mean-TF-IDF score per feature
  taken as a parameter `σ` (the claims under study do not depend on the
  score values, only on their presence).
-/

namespace WordCloud

/-! ### Character classes (ASCII models of the Python regex classes) -/

/-- Python regex `\s` (ASCII): space, tab, LF, CR, vertical tab, form feed. -/
def isSpc (c : Char) : Bool :=
  c = ' ' || c = '\t' || c = '\n' || c = '\r' || c = Char.ofNat 11 || c = Char.ofNat 12

/-- Python regex `\w` (ASCII): letters, digits, underscore. -/
def isWordChar (c : Char) : Bool := c.isAlphanum || c = '_'

/-- `none` or a non-word character (used for `\b` tests at string edges). -/
def notWordOpt : Option Char → Bool
  | none => true
  | some c => !isWordChar c

/-! ### The three deletion regexes of `preprocess_text`, as head-match functions -/

/-- Length of the maximal leading run of non-whitespace characters (greedy `\S+`
starting at offset 0, not requiring nonemptiness). -/
def nspRun (l : List Char) : Nat := (l.takeWhile (fun c => !isSpc c)).length

/-- Head-match length for `http\S+|www\S+`. -/
def urlMatchLen (l : List Char) : Option Nat :=
  if l.take 4 = ['h', 't', 't', 'p'] ∧ 0 < nspRun (l.drop 4) then
    some (4 + nspRun (l.drop 4))
  else if l.take 3 = ['w', 'w', 'w'] ∧ 0 < nspRun (l.drop 3) then
    some (3 + nspRun (l.drop 3))
  else none

/-- Head-match length for `\S+@\S+`: the match (if any) is the whole maximal
non-whitespace run starting here, and exists iff the run has an `@` that is
neither its first nor its last character. -/
def emailMatchLen (l : List Char) : Option Nat :=
  let run := l.takeWhile (fun c => !isSpc c)
  if '@' ∈ (run.drop 1).dropLast then some run.length else none

/-- Length of the maximal leading run of digits. -/
def digRun (l : List Char) : Nat := (l.takeWhile Char.isDigit).length

/-- Head-match length for `\b\d+\b`, given the previous character of the
original string (for the left word boundary). -/
def numMatchLen (prev : Option Char) (l : List Char) : Option Nat :=
  match l with
  | [] => none
  | c :: _ =>
    if c.isDigit && notWordOpt prev && notWordOpt (l.get? (digRun l)) then
      some (digRun l)
    else none

/-- `re.sub(pat, '', text)` for a pattern whose head matches are given by `M`:
scan left to right, deleting each leftmost match and continuing after it.
`M l = some n` means the pattern matches exactly the first `n` chars of `l`
(`n ≥ 1` for the patterns used here).  The first argument counts characters
of a previously found match still to be deleted; the scan itself starts
with `0`.  (The structural skip counter makes the definition reduce inside
the kernel; `scanSub_cons_some` recovers the usual "delete the whole match
and continue after it" equation.) -/
def scanSubAux (M : List Char → Option Nat) : Nat → List Char → List Char
  | _, [] => []
  | k + 1, _ :: cs => scanSubAux M k cs
  | 0, c :: cs =>
    match M (c :: cs) with
    | some n => scanSubAux M (n - 1) cs
    | none => c :: scanSubAux M 0 cs

def scanSub (M : List Char → Option Nat) (l : List Char) : List Char :=
  scanSubAux M 0 l

/-- `re.sub(r'\b\d+\b', '', text)`: like `scanSub` but threading the previous
character of the original string, which the `\b` assertions inspect (the
previous character is tracked through deleted characters as well, as in the
Python scan over the original string). -/
def scanNumAux : Option Char → Nat → List Char → List Char
  | _, _, [] => []
  | _, k + 1, c :: cs => scanNumAux (some c) k cs
  | prev, 0, c :: cs =>
    match numMatchLen prev (c :: cs) with
    | some n => scanNumAux (some c) (n - 1) cs
    | none => c :: scanNumAux (some c) 0 cs

def scanNum (prev : Option Char) (l : List Char) : List Char :=
  scanNumAux prev 0 l

/-- `re.sub(r'[^\w\s]', ' ', text)`. -/
def punctStep (l : List Char) : List Char :=
  l.map (fun c => if isWordChar c || isSpc c then c else ' ')

/-- `re.sub(r'\s+', ' ', text)`: each maximal whitespace run becomes a single
space.  The flag records whether the scan is inside a whitespace run whose
replacement space has already been emitted. -/
def collapseAux : Bool → List Char → List Char
  | _, [] => []
  | inRun, c :: cs =>
    if isSpc c then
      if inRun then collapseAux true cs else ' ' :: collapseAux true cs
    else c :: collapseAux false cs

def collapseStep (l : List Char) : List Char := collapseAux false l

/-! Recursion equations for the scanners, in "delete the full match and
continue after it" form. -/

theorem scanSubAux_skip (M : List Char → Option Nat) :
    ∀ (l : List Char) (k : Nat), scanSubAux M k l = scanSubAux M 0 (l.drop k)
  | [], k => by cases k <;> rfl
  | _ :: _, 0 => rfl
  | c :: cs, k + 1 => by
    rw [List.drop_succ_cons]
    exact scanSubAux_skip M cs k

theorem scanSub_cons_none {M : List Char → Option Nat} {c : Char} {cs : List Char}
    (h : M (c :: cs) = none) : scanSub M (c :: cs) = c :: scanSub M cs := by
  unfold scanSub
  rw [scanSubAux, h]

theorem scanSub_cons_some {M : List Char → Option Nat} {c : Char} {cs : List Char} {n : Nat}
    (h : M (c :: cs) = some n) : scanSub M (c :: cs) = scanSub M (cs.drop (n - 1)) := by
  unfold scanSub
  rw [scanSubAux, h]
  exact scanSubAux_skip M cs (n - 1)

/-- The previous-character value after skipping `k` characters of `cs`. -/
def prevAfter (prev : Option Char) (k : Nat) (cs : List Char) : Option Char :=
  match k with
  | 0 => prev
  | k + 1 => cs.get? k

theorem scanNumAux_skip :
    ∀ (cs : List Char) (k : Nat) (prev : Option Char),
      scanNumAux prev k cs = scanNumAux (prevAfter prev k cs) 0 (cs.drop k)
  | [], k, prev => by cases k <;> rfl
  | _ :: _, 0, prev => rfl
  | c :: cs, k + 1, prev => by
    rw [List.drop_succ_cons,
      show scanNumAux prev (k + 1) (c :: cs) = scanNumAux (some c) k cs from rfl,
      scanNumAux_skip cs k (some c)]
    congr 1
    cases k with
    | zero => rfl
    | succ j => rfl

theorem scanNum_cons_none {prev : Option Char} {c : Char} {cs : List Char}
    (h : numMatchLen prev (c :: cs) = none) :
    scanNum prev (c :: cs) = c :: scanNum (some c) cs := by
  unfold scanNum
  rw [scanNumAux, h]

theorem scanNum_cons_some {prev : Option Char} {c : Char} {cs : List Char} {m : Nat}
    (h : numMatchLen prev (c :: cs) = some m) :
    scanNum prev (c :: cs) = scanNum ((c :: cs).get? (m - 1)) (cs.drop (m - 1)) := by
  unfold scanNum
  rw [scanNumAux, h]
  refine (scanNumAux_skip cs (m - 1) (some c)).trans ?_
  congr 1
  cases m with
  | zero => rfl
  | succ j => cases j with
    | zero => rfl
    | succ i => rfl

theorem collapseAux_true (cs : List Char) :
    collapseAux true cs = collapseStep (cs.dropWhile isSpc) := by
  induction cs with
  | nil => rfl
  | cons c cs ih =>
    by_cases h : isSpc c
    · rw [show collapseAux true (c :: cs) = collapseAux true cs by simp [collapseAux, h],
        List.dropWhile_cons_of_pos h, ih]
    · rw [show collapseAux true (c :: cs) = c :: collapseAux false cs by
        simp [collapseAux, h], List.dropWhile_cons_of_neg h]
      simp [collapseStep, collapseAux, h]

theorem collapseStep_cons (c : Char) (cs : List Char) :
    collapseStep (c :: cs) =
      if isSpc c then ' ' :: collapseStep (cs.dropWhile isSpc)
      else c :: collapseStep cs := by
  by_cases h : isSpc c
  · rw [if_pos h, ← collapseAux_true]
    simp [collapseStep, collapseAux, h]
  · rw [if_neg h]
    simp [collapseStep, collapseAux, h]

/-- Python `str.strip()` (whitespace trim on both sides). -/
def trimStep (l : List Char) : List Char :=
  ((l.dropWhile isSpc).reverse.dropWhile isSpc).reverse

/-- Python `str.lower()` (ASCII model). -/
def lowerStep (l : List Char) : List Char := l.map Char.toLower

/-- Python `str.lower()` on a `String`. -/
def pyLower (s : String) : String := String.mk (lowerStep s.data)

/-- `preprocess_text` from `analyzer.py`, line by line. -/
def preprocess_text (s : String) : String :=
  -- text = text.lower()
  let text := lowerStep s.data
  -- text = re.sub(r'http\S+|www\S+', '', text)
  let text := scanSub urlMatchLen text
  -- text = re.sub(r'\S+@\S+', '', text)
  let text := scanSub emailMatchLen text
  -- text = re.sub(r'\b\d+\b', '', text)
  let text := scanNum none text
  -- text = re.sub(r'[^\w\s]', ' ', text)
  let text := punctStep text
  -- text = re.sub(r'\s+', ' ', text)
  let text := collapseStep text
  -- return text.strip()
  String.mk (trimStep text)

/-! ### Exact-rational model of Python numbers -/

/-- Round-half-to-even to the nearest integer (Python `round`, modelled
exactly over `ℚ`). -/
def rhe (q : ℚ) : ℤ :=
  if q - ⌊q⌋ < 1 / 2 then ⌊q⌋
  else if 1 / 2 < q - ⌊q⌋ then ⌊q⌋ + 1
  else if ⌊q⌋ % 2 = 0 then ⌊q⌋ else ⌊q⌋ + 1

/-- Python `round(x, 3)`. -/
def round3 (q : ℚ) : ℚ := (rhe (1000 * q) : ℚ) / 1000

/-! ### The stop-word set

`STOP_WORDS = set(stopwords.words('english')).union({...})` from
`analyzer.py`: the standard NLTK English stop-word list plus the module's
curated extension.  Only membership is ever used, so it is modelled as a
list. -/

/-- Joins two string halves with an ASCII apostrophe (several NLTK
stop words contain one). -/
def apo (a b : String) : String := a ++ String.mk [Char.ofNat 39] ++ b

/-- `stopwords.words('english')` (NLTK data). -/
def nltkStopwords : List String :=
  ["i", "me", "my", "myself", "we", "our", "ours", "ourselves", "you",
   apo "you" "re", apo "you" "ve", apo "you" "ll", apo "you" "d",
   "your", "yours", "yourself", "yourselves", "he", "him", "his", "himself",
   "she", apo "she" "s", "her", "hers", "herself", "it", apo "it" "s",
   "its", "itself", "they", "them", "their", "theirs", "themselves",
   "what", "which", "who", "whom", "this", "that", apo "that" "ll",
   "these", "those", "am", "is", "are", "was", "were", "be", "been",
   "being", "have", "has", "had", "having", "do", "does", "did", "doing",
   "a", "an", "the", "and", "but", "if", "or", "because", "as", "until",
   "while", "of", "at", "by", "for", "with", "about", "against", "between",
   "into", "through", "during", "before", "after", "above", "below", "to",
   "from", "up", "down", "in", "out", "on", "off", "over", "under", "again",
   "further", "then", "once", "here", "there", "when", "where", "why",
   "how", "all", "any", "both", "each", "few", "more", "most", "other",
   "some", "such", "no", "nor", "not", "only", "own", "same", "so", "than",
   "too", "very", "s", "t", "can", "will", "just", "don", apo "don" "t",
   "should", apo "should" "ve", "now", "d", "ll", "m", "o", "re", "ve",
   "y", "ain", "aren", apo "aren" "t", "couldn", apo "couldn" "t",
   "didn", apo "didn" "t", "doesn", apo "doesn" "t", "hadn", apo "hadn" "t",
   "hasn", apo "hasn" "t", "haven", apo "haven" "t", "isn", apo "isn" "t",
   "ma", "mightn", apo "mightn" "t", "mustn", apo "mustn" "t",
   "needn", apo "needn" "t", "shan", apo "shan" "t",
   "shouldn", apo "shouldn" "t", "wasn", apo "wasn" "t",
   "weren", apo "weren" "t", "won", apo "won" "t",
   "wouldn", apo "wouldn" "t"]

/-- The curated extension list from `analyzer.py`. -/
def extraStopwords : List String :=
  ["said", "say", "says", "would", "could", "also", "may", "might",
   "one", "two", "three", "first", "second", "new", "like", "well",
   "get", "got", "make", "made", "take", "taken", "go", "going",
   "come", "coming", "see", "seen", "know", "known", "think", "thought",
   "tell", "told", "find", "found", "give", "given", "use", "used",
   "want", "wanted", "look", "looked", "year", "years", "time", "times",
   "people", "person", "thing", "things", "way", "ways", "day", "days"]

def STOP_WORDS : List String := nltkStopwords ++ extraStopwords

/-! ### Data model -/

/-- One entry of the keyword list:
`{'word': ..., 'weight': ..., 'frequency': ...}`. -/
structure Keyword where
  word : String
  weight : ℚ
  frequency : Nat
deriving Repr, DecidableEq

/-- `{'words': keywords, 'word_count': word_count}`. -/
structure AnalysisResult where
  words : List Keyword
  word_count : Nat
deriving Repr, DecidableEq

/-! ### `get_word_frequencies` (Python dict as insertion-ordered assoc list) -/

/-- `d.get(w)` on an insertion-ordered assoc list. -/
def alookup (d : List (String × Nat)) (w : String) : Option Nat :=
  match d with
  | [] => none
  | (k, v) :: rest => if k = w then some v else alookup rest w

/-- `d[w] = d.get(w, 0) + 1`: Python dict update keeps the insertion position
of an existing key and appends a fresh key at the end. -/
def bump (d : List (String × Nat)) (w : String) : List (String × Nat) :=
  match d with
  | [] => [(w, 1)]
  | (k, v) :: rest => if k = w then (k, v + 1) :: rest else (k, v) :: bump rest w

/-- `get_word_frequencies` from `analyzer.py`; the NLTK `word_tokenize` is the
parameter `wtok`. -/
def get_word_frequencies (wtok : String → List String) (text : String) :
    List (String × Nat) :=
  (wtok text).foldl
    (fun d w => if 3 ≤ w.length ∧ w ∉ STOP_WORDS then bump d w else d) []

/-! ### The fallback path: `extract_keywords_frequency`

Python's `sorted(..., key=..., reverse=True)` is a stable descending sort;
it is modelled by `List.insertionSort` with the total preorder
`fun a b => key b ≤ key a`, which is also stable (an element is inserted
after all earlier elements whose key is ≥ its own). -/

def extract_keywords_frequency (wtok : String → List String) (text : String)
    (max_words : Nat) : List Keyword :=
  let word_freq := get_word_frequencies wtok text
  let sorted_words := List.insertionSort (fun a b : String × Nat => b.2 ≤ a.2) word_freq
  let top_words := sorted_words.take max_words
  if h : top_words = [] then []
  else
    let max_freq := (top_words.head h).2
    top_words.map fun p =>
      { word := p.1, weight := round3 ((p.2 : ℚ) / (max_freq : ℚ)), frequency := p.2 }

/-! ### The configured `TfidfVectorizer` -/

/-- Maximal runs of characters satisfying `p`; `cur` accumulates the current
run in reverse. -/
def runsPAux (p : Char → Bool) : List Char → List Char → List (List Char)
  | cur, [] => if cur = [] then [] else [cur.reverse]
  | cur, c :: cs =>
    if p c then runsPAux p (c :: cur) cs
    else if cur = [] then runsPAux p [] cs else cur.reverse :: runsPAux p [] cs

def runsP (p : Char → Bool) (l : List Char) : List (List Char) := runsPAux p [] l

/-- Maximal runs of `\w` characters of a string (word-boundary structure). -/
def wordRuns (l : List Char) : List (List Char) := runsP isWordChar l

/-- The vectorizer's analyzer tokens: `lowercase=True` then
`token_pattern=r'\b[a-zA-Z]{3,}\b'`, i.e. the maximal `\w`-runs that consist
solely of ASCII letters and have length ≥ 3. -/
def sklearnTokens (doc : String) : List String :=
  ((wordRuns (doc.data.map Char.toLower)).filter
    (fun r => r.all Char.isAlpha ∧ 3 ≤ r.length)).map (fun r => String.mk r)

/-- `ngram_range=(1, 2)` with `stop_words=list(STOP_WORDS)`: sklearn removes
stop-word tokens first and then emits all unigrams followed by all
space-joined bigrams of the remaining sequence. -/
def docNgrams (doc : String) : List String :=
  let toks := (sklearnTokens doc).filter (fun w => w ∉ STOP_WORDS)
  toks ++ List.zipWith (fun a b => a ++ " " ++ b) toks toks.tail

/-- Document frequency of a term across the segments. -/
def docFreq (segs : List String) (t : String) : Nat :=
  segs.countP (fun d => t ∈ docNgrams d)

/-- Total occurrence count of a term across the segments. -/
def termCount (segs : List String) (t : String) : Nat :=
  (segs.map (fun d => (docNgrams d).count t)).sum

/-- First-occurrence deduplication; `seen` is the set of already-emitted
values.  (`dedupF_cons` below recovers the filter-style recursion.) -/
def dedupAux : List String → List String → List String
  | _, [] => []
  | seen, w :: ws => if w ∈ seen then dedupAux seen ws else w :: dedupAux (w :: seen) ws

def dedupF (l : List String) : List String := dedupAux [] l

theorem dedupF_nil : dedupF [] = [] := rfl

theorem dedupAux_eq :
    ∀ (l seen : List String), dedupAux seen l = dedupF (l.filter (fun x => x ∉ seen))
  | [], seen => rfl
  | w :: ws, seen => by
    by_cases h : w ∈ seen
    · rw [show dedupAux seen (w :: ws) = dedupAux seen ws by simp [dedupAux, h],
        dedupAux_eq ws seen]
      congr 1
      simp [List.filter_cons, h]
    · rw [show dedupAux seen (w :: ws) = w :: dedupAux (w :: seen) ws by
        simp [dedupAux, h], dedupAux_eq ws (w :: seen)]
      have hrhs : (w :: ws).filter (fun x => x ∉ seen)
          = w :: ws.filter (fun x => x ∉ seen) := by
        simp [List.filter_cons, h]
      rw [hrhs,
        show dedupF (w :: ws.filter (fun x => x ∉ seen))
          = w :: dedupAux [w] (ws.filter (fun x => x ∉ seen)) by
            simp [dedupF, dedupAux],
        dedupAux_eq (ws.filter (fun x => x ∉ seen)) [w]]
      congr 2
      rw [List.filter_filter]
      apply List.filter_congr
      intro x _
      by_cases hx : x = w <;> by_cases hs : x ∈ seen <;> simp [hx, hs]
termination_by l _ => l.length
decreasing_by
  · simp only [List.length_cons]; omega
  · simp only [List.length_cons]; omega
  · have := List.length_filter_le (fun x => decide (x ∉ seen)) ws
    simp only [List.length_cons]; omega

theorem dedupF_cons (w : String) (ws : List String) :
    dedupF (w :: ws) = w :: dedupF (ws.filter (fun x => x ≠ w)) := by
  rw [show dedupF (w :: ws) = w :: dedupAux [w] ws by simp [dedupF, dedupAux],
    dedupAux_eq ws [w]]
  congr 2
  apply List.filter_congr
  intro x _
  simp

/-- Lexicographic comparison of character lists (by code point). -/
def lexLeb : List Char → List Char → Bool
  | [], _ => true
  | _ :: _, [] => false
  | a :: as, b :: bs => if a = b then lexLeb as bs else decide (a < b)

/-- Alphabetical (code-point lexicographic) order on strings, used for the
vectorizer's sorted feature names. -/
def strLe (a b : String) : Prop := lexLeb a.data b.data = true

instance : DecidableRel strLe := fun a b => by
  unfold strLe
  infer_instance

/-- The `max_df=0.95` criterion: the term's document frequency does not
exceed 95% of the number of segments. -/
def maxDfOk (df n : Nat) : Prop := (df : ℚ) ≤ 95 / 100 * (n : ℚ)

/-- `maxDfOk` decided by the equivalent integer comparison (so that the
vocabulary is computable by reduction). -/
instance (df n : Nat) : Decidable (maxDfOk df n) :=
  decidable_of_iff (100 * df ≤ 95 * n) (by
    unfold maxDfOk
    constructor
    · intro h
      have h2 : ((100 * df : ℕ) : ℚ) ≤ ((95 * n : ℕ) : ℚ) := by exact_mod_cast h
      push_cast at h2
      linarith
    · intro h
      have h2 : (100 : ℚ) * df ≤ 95 * n := by linarith
      exact_mod_cast h2)

/-- All distinct 1-2-grams over the segments, in alphabetical order (sklearn
sorts its feature names). -/
def vocabAll (segs : List String) : List String :=
  List.insertionSort strLe (dedupF (segs.map docNgrams).flatten)

/-- The vocabulary after document-frequency pruning
(`min_df=1`, `max_df=0.95`). -/
def vocabDfFiltered (segs : List String) : List String :=
  (vocabAll segs).filter
    (fun t => 1 ≤ docFreq segs t ∧ maxDfOk (docFreq segs t) segs.length)

/-- The fitted vocabulary: the df-pruned vocabulary, capped to the
`max_features` terms of largest total count (sklearn's tie order among equal
counts is unspecified; the stable descending sort is one deterministic
choice), keeping the alphabetical order of the survivors. -/
def buildVocab (segs : List String) (cap : Nat) : List String :=
  if (vocabDfFiltered segs).length ≤ cap then vocabDfFiltered segs
  else
    (vocabDfFiltered segs).filter (fun t =>
      t ∈ (List.insertionSort
        (fun a b : String => termCount segs b ≤ termCount segs a)
        (vocabDfFiltered segs)).take cap)

/-- Failures raised inside `fit_transform` (e.g. sklearn's
"empty vocabulary" `ValueError`). -/
inductive VecError where
  | emptyVocabulary
deriving Repr, DecidableEq

/-- `vectorizer.fit_transform(sentences)` followed by pairing
`feature_names` with `avg_tfidf_scores`: the vocabulary is concrete, the
mean TF-IDF value of each feature is supplied by the score parameter `σ`. -/
def fitTransform (σ : List String → String → ℚ) (segs : List String) (cap : Nat) :
    Except VecError (List (String × ℚ)) :=
  let v := buildVocab segs cap
  if v = [] then .error .emptyVocabulary
  else .ok (v.map (fun t => (t, σ segs t)))

/-! ### The primary path: `extract_keywords_tfidf` -/

/-- Python `text.split('.')`: split at every literal period, keeping empty
fragments; `cur` accumulates the current fragment in reverse. -/
def splitDotAux : List Char → List Char → List (List Char)
  | cur, [] => [cur.reverse]
  | cur, c :: cs =>
    if c = '.' then cur.reverse :: splitDotAux [] cs else splitDotAux (c :: cur) cs

/-- `[s.strip() for s in text.split('.') if len(s.strip()) > 20]`. -/
def splitPeriods (text : String) : List String :=
  ((splitDotAux [] text.data).map (fun s => String.mk (trimStep s))).filter
    (fun s => 20 < s.length)

/-- `sentences = sent_tokenize(text)`, re-split on periods when fewer than 3
sentences are found; `sent_tokenize` is the parameter `stok`. -/
def segmentsOf (stok : String → List String) (text : String) : List String :=
  let sentences := stok text
  if sentences.length < 3 then splitPeriods text else sentences

/-- `word.replace(' ', '_')`: the pattern is a single character, so the
replacement is per-character. -/
def underscoreJoin (s : String) : String :=
  String.mk (s.data.map (fun c => if c = ' ' then '_' else c))

/-- The `word_data` list: walk the feature/score pairs in feature order,
keep scores > 0, replace the bigram joiner for display, and attach
`word_freq.get(word, 1)`. -/
def buildWordData (featScores : List (String × ℚ)) (wf : List (String × Nat)) :
    List Keyword :=
  featScores.filterMap fun p =>
    if 0 < p.2 then
      some { word := underscoreJoin p.1, weight := p.2,
             frequency := (alookup wf p.1).getD 1 }
    else none

/-- The in-place weight normalization of `extract_keywords_tfidf`: if the list
is non-empty and its top weight is positive, divide every weight by the top
weight and round to 3 decimals. -/
def normalizeWeights : List Keyword → List Keyword
  | [] => []
  | k0 :: rest =>
    if 0 < k0.weight then
      (k0 :: rest).map (fun k => { k with weight := round3 (k.weight / k0.weight) })
    else k0 :: rest

/-- `extract_keywords_tfidf` with the vectorizer run abstracted (`vecRun`):
the `try/except` around the TF-IDF computation is the `Except` match — any
failure of the primary computation falls back to frequency extraction. -/
def extract_keywords_tfidf_with
    (vecRun : List String → Except VecError (List (String × ℚ)))
    (stok wtok : String → List String) (text : String) (max_words : Nat) :
    List Keyword :=
  let sentences := segmentsOf stok text
  if sentences.length < 2 then extract_keywords_frequency wtok text max_words
  else
    match vecRun sentences with
    | .error _ => extract_keywords_frequency wtok text max_words
    | .ok featScores =>
      let word_data := buildWordData featScores (get_word_frequencies wtok text)
      let sorted := List.insertionSort (fun a b : Keyword => b.weight ≤ a.weight) word_data
      (normalizeWeights sorted).take max_words

/-- `extract_keywords_tfidf` from `analyzer.py`
(`max_features = max_words * 3`). -/
def extract_keywords_tfidf (σ : List String → String → ℚ)
    (stok wtok : String → List String) (text : String) (max_words : Nat) :
    List Keyword :=
  extract_keywords_tfidf_with (fun segs => fitTransform σ segs (max_words * 3))
    stok wtok text max_words

/-! ### The top-level `analyze_text` -/

/-- `analyze_text` with the vectorizer run abstracted. -/
def analyze_text_with
    (vecRun : List String → Except VecError (List (String × ℚ)))
    (stok wtok : String → List String) (text : String) (max_words : Nat) :
    Option AnalysisResult :=
  let cleaned_text := preprocess_text text
  if cleaned_text = "" then none
  else
    let words := wtok (pyLower cleaned_text)
    let word_count := words.length
    let keywords := extract_keywords_tfidf_with vecRun stok wtok cleaned_text max_words
    if keywords = [] then none
    else some { words := keywords, word_count := word_count }

/-- `analyze_text` from `analyzer.py`. -/
def analyze_text (σ : List String → String → ℚ)
    (stok wtok : String → List String) (text : String) (max_words : Nat) :
    Option AnalysisResult :=
  analyze_text_with (fun segs => fitTransform σ segs (max_words * 3))
    stok wtok text max_words

/-! ### Concrete instantiations of the external parameters
(used to evaluate the theorems on closed inputs) -/

/-- Whitespace word-splitting: a concrete deterministic word tokenizer. -/
def wsTok (s : String) : List String :=
  (runsP (fun c => !(c = ' ')) s.data).map String.mk

/-- A degenerate sentence tokenizer that never finds boundaries. -/
def noSeg (_ : String) : List String := []

/-- A sentence tokenizer returning three fixed segments. -/
def threeSeg (_ : String) : List String :=
  ["alpha beta gamma", "alpha delta", "beta gamma delta"]

/-- A constant positive score assignment. -/
def oneScore (_ : List String) (_ : String) : ℚ := 1

/-- A vectorizer run that always fails. -/
def failVec (_ : List String) : Except VecError (List (String × ℚ)) :=
  .error .emptyVocabulary

/-! ### Facts about `round3` -/

theorem rhe_ge_floor (q : ℚ) : ⌊q⌋ ≤ rhe q := by
  unfold rhe; split_ifs <;> omega

theorem rhe_le_floor_add_one (q : ℚ) : rhe q ≤ ⌊q⌋ + 1 := by
  unfold rhe; split_ifs <;> omega

theorem rhe_intCast (n : ℤ) : rhe (n : ℚ) = n := by
  unfold rhe
  rw [Int.floor_intCast]
  have h0 : (n : ℚ) - n = 0 := by ring
  rw [h0]
  norm_num

theorem rhe_mono {q r : ℚ} (h : q ≤ r) : rhe q ≤ rhe r := by
  rcases lt_or_eq_of_le (Int.floor_mono h) with hlt | heq
  · have h1 := rhe_le_floor_add_one q
    have h2 := rhe_ge_floor r
    omega
  · have hc : ((⌊q⌋ : ℤ) : ℚ) = ((⌊r⌋ : ℤ) : ℚ) := by exact_mod_cast heq
    have hfr : q - ((⌊q⌋ : ℤ) : ℚ) ≤ r - ((⌊r⌋ : ℤ) : ℚ) := by rw [← hc]; linarith
    unfold rhe
    split_ifs <;> first | omega | linarith

theorem round3_mono {q r : ℚ} (h : q ≤ r) : round3 q ≤ round3 r := by
  unfold round3
  have h1 : rhe (1000 * q) ≤ rhe (1000 * r) := rhe_mono (by linarith)
  have h2 : ((rhe (1000 * q) : ℤ) : ℚ) ≤ ((rhe (1000 * r) : ℤ) : ℚ) := by exact_mod_cast h1
  linarith

theorem round3_one : round3 1 = 1 := by
  unfold round3
  have h0 : (1000 : ℚ) * 1 = ((1000 : ℤ) : ℚ) := by norm_num
  rw [h0, rhe_intCast]; norm_num

theorem round3_zero : round3 0 = 0 := by
  unfold round3
  have h0 : (1000 : ℚ) * 0 = ((0 : ℤ) : ℚ) := by norm_num
  rw [h0, rhe_intCast]; norm_num

theorem round3_nonneg {q : ℚ} (h : 0 ≤ q) : 0 ≤ round3 q := by
  have h1 := round3_mono h; rwa [round3_zero] at h1

theorem round3_le_one {q : ℚ} (h : q ≤ 1) : round3 q ≤ 1 := by
  have h1 := round3_mono h; rwa [round3_one] at h1

/-! ### Stability of the insertion sort

Python's `sorted(..., key=k, reverse=True)` and `list.sort` are stable;
`List.insertionSort` with the total preorder `fun a b => k b ≤ k a` has the
same behaviour.  The next two lemmas express the stability: any pairwise
relation of the input that is compatible with the sort order survives into
the output. -/

theorem pairwise_orderedInsert {α : Type} (r : α → α → Prop) [DecidableRel r] [IsTrans α r]
    (Q : α → α → Prop) (a : α) :
    ∀ L : List α, L.Sorted r → L.Pairwise Q →
      (∀ b ∈ L, (r a b → Q a b) ∧ (¬r a b → Q b a)) →
      (L.orderedInsert r a).Pairwise Q
  | [], _, _, _ => by simp
  | b :: bs, hs, hL, ha => by
    simp only [List.orderedInsert]
    split_ifs with hr
    · refine List.Pairwise.cons ?_ hL
      intro x hx
      rcases List.mem_cons.mp hx with rfl | hx
      · exact (ha x (List.mem_cons_self _ _)).1 hr
      · have hbx : r b x := List.rel_of_sorted_cons hs x hx
        have hax : r a x := IsTrans.trans a b x hr hbx
        exact (ha x (List.mem_cons_of_mem _ hx)).1 hax
    · refine List.Pairwise.cons ?_
        (pairwise_orderedInsert r Q a bs hs.of_cons hL.of_cons
          (fun c hc => ha c (List.mem_cons_of_mem _ hc)))
      intro x hx
      rcases (List.mem_orderedInsert _).mp hx with rfl | hx
      · exact (ha b (List.mem_cons_self _ _)).2 hr
      · exact List.rel_of_pairwise_cons hL hx

theorem pairwise_insertionSort {α : Type} (r : α → α → Prop) [DecidableRel r]
    [IsTotal α r] [IsTrans α r] (Q : α → α → Prop) :
    ∀ l : List α, l.Pairwise (fun a b => (r a b → Q a b) ∧ (¬r a b → Q b a)) →
      (l.insertionSort r).Pairwise Q
  | [], _ => by simp
  | a :: t, hl => by
    rw [List.insertionSort]
    exact pairwise_orderedInsert r Q a _ (List.sorted_insertionSort r t)
      (pairwise_insertionSort r Q t hl.of_cons)
      (fun b hb => List.rel_of_pairwise_cons hl ((List.mem_insertionSort r).mp hb))

/-! ### Characterization of the frequency map -/

/-- The tokens that `get_word_frequencies` actually counts. -/
def filteredTokens (wtok : String → List String) (text : String) : List String :=
  (wtok text).filter (fun w => 3 ≤ w.length ∧ w ∉ STOP_WORDS)

theorem foldl_bump_filter :
    ∀ (ts : List String) (d : List (String × Nat)),
      ts.foldl (fun d w => if 3 ≤ w.length ∧ w ∉ STOP_WORDS then bump d w else d) d
        = (ts.filter (fun w => 3 ≤ w.length ∧ w ∉ STOP_WORDS)).foldl bump d
  | [], _ => rfl
  | t :: ts, d => by
    by_cases h : 3 ≤ t.length ∧ t ∉ STOP_WORDS
    · simp only [List.foldl_cons, List.filter_cons, if_pos h, decide_eq_true h.elim]
      rw [if_pos (by simpa using h), foldl_bump_filter ts (bump d t)]
      simp [h]
    · simp only [List.foldl_cons, List.filter_cons, if_neg h]
      rw [if_neg (by simpa using h), foldl_bump_filter ts d]

theorem get_word_frequencies_eq (wtok : String → List String) (text : String) :
    get_word_frequencies wtok text = (filteredTokens wtok text).foldl bump [] :=
  foldl_bump_filter (wtok text) []

theorem alookup_bump_self (d : List (String × Nat)) (w : String) :
    alookup (bump d w) w = some ((alookup d w).getD 0 + 1) := by
  induction d with
  | nil => simp [bump, alookup]
  | cons q rest ih =>
    by_cases h : q.1 = w
    · simp [bump, alookup, h]
    · simp [bump, alookup, h, ih]

theorem alookup_bump_other :
    ∀ (d : List (String × Nat)) {w v : String}, v ≠ w →
      alookup (bump d w) v = alookup d v
  | [], w, v, h => by
    have h1 : ¬w = v := fun hh => h hh.symm
    simp [bump, alookup, h1]
  | (k, x) :: rest, w, v, h => by
    by_cases hk : k = w
    · have h1 : ¬k = v := by rw [hk]; exact fun hh => h hh.symm
      simp only [bump, if_pos hk, alookup, if_neg h1]
    · simp only [bump, if_neg hk, alookup]
      by_cases hv : k = v
      · rw [if_pos hv, if_pos hv]
      · rw [if_neg hv, if_neg hv, alookup_bump_other rest h]

theorem alookup_foldl_bump :
    ∀ (ts : List String) (d : List (String × Nat)) (w : String),
      alookup (ts.foldl bump d) w =
        match alookup d w with
        | some v => some (v + ts.count w)
        | none => if 0 < ts.count w then some (ts.count w) else none
  | [], d, w => by cases h : alookup d w <;> simp [h]
  | t :: ts, d, w => by
    rw [List.foldl_cons, alookup_foldl_bump ts (bump d t) w]
    by_cases htw : t = w
    · subst htw
      rw [alookup_bump_self]
      cases h : alookup d t <;>
        simp [h, List.count_cons, Nat.add_comm, Nat.add_assoc, Nat.add_left_comm]
    · rw [alookup_bump_other d (fun hh => htw hh.symm)]
      have hc : (t :: ts).count w = ts.count w := by
        simp [List.count_cons, htw]
      rw [hc]

theorem alookup_wf_iff (wtok : String → List String) (text : String) (w : String) (c : Nat) :
    alookup (get_word_frequencies wtok text) w = some c ↔
      0 < c ∧ c = (filteredTokens wtok text).count w := by
  rw [get_word_frequencies_eq, alookup_foldl_bump]
  simp only [alookup]
  constructor
  · intro he
    split_ifs at he with h
    have hce := Option.some_inj.mp he
    exact ⟨by omega, hce.symm⟩
  · rintro ⟨hc, rfl⟩
    rw [if_pos hc]

/-! ### First-occurrence order of the frequency-map keys -/

def keysOf (d : List (String × Nat)) : List String := d.map Prod.fst

/-- Position of the first occurrence of `w` in `L`. -/
def firstIdx (L : List String) (w : String) : Nat := L.findIdx (fun x => x = w)

theorem keysOf_bump :
    ∀ (d : List (String × Nat)) (w : String),
      keysOf (bump d w) = if w ∈ keysOf d then keysOf d else keysOf d ++ [w]
  | [], w => by simp [bump, keysOf]
  | (k, x) :: rest, w => by
    by_cases hk : k = w
    · subst hk
      simp [bump, keysOf]
    · have h1 : ¬w = k := fun hh => hk hh.symm
      simp only [bump, if_neg hk, keysOf, List.map_cons]
      rw [show List.map Prod.fst (bump rest w) = keysOf (bump rest w) from rfl,
        keysOf_bump rest w]
      by_cases hm : w ∈ List.map Prod.fst rest
      · simp [keysOf, List.mem_cons, hm, h1]
      · simp [keysOf, List.mem_cons, hm, h1]

theorem mem_dedupF : ∀ (L : List String) (a : String), a ∈ dedupF L ↔ a ∈ L
  | [], a => by simp [dedupF_nil]
  | w :: ws, a => by
    rw [dedupF_cons]
    by_cases h : a = w
    · subst h; simp
    · simp only [List.mem_cons, mem_dedupF (ws.filter (fun x => x ≠ w)) a,
        List.mem_filter]
      constructor
      · rintro (rfl | ⟨hm, _⟩)
        · exact Or.inl rfl
        · exact Or.inr hm
      · rintro (rfl | hm)
        · exact Or.inl rfl
        · exact Or.inr ⟨hm, by simpa using h⟩
termination_by L _ => L.length
decreasing_by
  have := List.length_filter_le (fun x => x ≠ w) ws
  simp only [List.length_cons]; omega

theorem keysOf_foldl_bump :
    ∀ (ts : List String) (d : List (String × Nat)),
      keysOf (ts.foldl bump d) = keysOf d ++ dedupF (ts.filter (fun w => w ∉ keysOf d))
  | [], d => by simp [dedupF_nil]
  | t :: ts, d => by
    rw [List.foldl_cons, keysOf_foldl_bump ts (bump d t), keysOf_bump]
    by_cases h : t ∈ keysOf d
    · rw [if_pos h]
      have hf : (t :: ts).filter (fun w => w ∉ keysOf d)
          = ts.filter (fun w => w ∉ keysOf d) := by
        simp [List.filter_cons, h]
      rw [hf]
    · rw [if_neg h]
      have hf : (t :: ts).filter (fun w => w ∉ keysOf d)
          = t :: ts.filter (fun w => w ∉ keysOf d) := by
        simp [List.filter_cons, h]
      rw [hf, dedupF_cons]
      have hff : ts.filter (fun w => w ∉ keysOf d ++ [t])
          = (ts.filter (fun w => w ∉ keysOf d)).filter (fun x => x ≠ t) := by
        rw [List.filter_filter]
        apply List.filter_congr
        intro x _
        by_cases hx : x = t <;> by_cases hk : x ∈ keysOf d <;> simp [hx, hk, h]
      rw [hff]
      simp

theorem keysOf_wf (wtok : String → List String) (text : String) :
    keysOf (get_word_frequencies wtok text) = dedupF (filteredTokens wtok text) := by
  rw [get_word_frequencies_eq, keysOf_foldl_bump]
  simp [keysOf]

theorem dedupF_nodup : ∀ L : List String, (dedupF L).Nodup
  | [] => by simp [dedupF_nil]
  | w :: ws => by
    rw [dedupF_cons]
    refine List.nodup_cons.mpr ⟨?_, dedupF_nodup (ws.filter (fun x => x ≠ w))⟩
    intro hmem
    have h := (mem_dedupF _ _).mp hmem
    simp at h
termination_by L => L.length
decreasing_by
  have := List.length_filter_le (fun x => x ≠ w) ws
  simp only [List.length_cons]; omega

theorem firstIdx_cons_self (L : List String) (w : String) : firstIdx (w :: L) w = 0 := by
  simp [firstIdx, List.findIdx_cons]

theorem firstIdx_cons_ne (L : List String) {w a : String} (h : a ≠ w) :
    firstIdx (w :: L) a = firstIdx L a + 1 := by
  have h1 : ¬w = a := fun hh => h hh.symm
  simp [firstIdx, List.findIdx_cons, h1]

theorem firstIdx_filter_lt (p : String → Bool) :
    ∀ (L : List String) (a b : String), a ∈ L.filter p → b ∈ L.filter p →
      firstIdx (L.filter p) a < firstIdx (L.filter p) b → firstIdx L a < firstIdx L b
  | [], a, b, ha, _, _ => by simp at ha
  | x :: L, a, b, ha, hb, h => by
    by_cases hp : p x
    · rw [List.filter_cons_of_pos hp] at ha hb h
      by_cases hax : a = x
      · subst hax
        by_cases hbx : b = a
        · subst hbx; simp [firstIdx_cons_self] at h
        · rw [firstIdx_cons_self, firstIdx_cons_ne _ hbx]; omega
      · by_cases hbx : b = x
        · subst hbx
          rw [firstIdx_cons_self, firstIdx_cons_ne _ hax] at h; omega
        · rw [firstIdx_cons_ne _ hax, firstIdx_cons_ne _ hbx] at h ⊢
          have hha : a ∈ L.filter p := by
            rcases List.mem_cons.mp ha with hh | hh
            · exact absurd hh hax
            · exact hh
          have hhb : b ∈ L.filter p := by
            rcases List.mem_cons.mp hb with hh | hh
            · exact absurd hh hbx
            · exact hh
          exact Nat.succ_lt_succ
            (firstIdx_filter_lt p L a b hha hhb (Nat.lt_of_succ_lt_succ h))
    · rw [List.filter_cons_of_neg hp] at ha hb h
      have hax : a ≠ x := by
        intro hh
        exact hp (by rw [← hh]; exact (List.mem_filter.mp ha).2)
      have hbx : b ≠ x := by
        intro hh
        exact hp (by rw [← hh]; exact (List.mem_filter.mp hb).2)
      rw [firstIdx_cons_ne _ hax, firstIdx_cons_ne _ hbx]
      exact Nat.succ_lt_succ (firstIdx_filter_lt p L a b ha hb h)

theorem dedupF_pairwise :
    ∀ L : List String, (dedupF L).Pairwise (fun a b => firstIdx L a < firstIdx L b)
  | [] => by simp [dedupF_nil]
  | w :: ws => by
    rw [dedupF_cons]
    refine List.Pairwise.cons ?_ ?_
    · intro b hb
      have hbf := (mem_dedupF _ _).mp hb
      have hbw : b ≠ w := by
        have := (List.mem_filter.mp hbf).2; simpa using this
      rw [firstIdx_cons_self, firstIdx_cons_ne _ hbw]; omega
    · have ih := dedupF_pairwise (ws.filter (fun x => x ≠ w))
      refine ih.imp_of_mem ?_
      intro a b ha hb hab
      have haf := (mem_dedupF _ _).mp ha
      have hbf := (mem_dedupF _ _).mp hb
      have haw : a ≠ w := by simpa using (List.mem_filter.mp haf).2
      have hbw : b ≠ w := by simpa using (List.mem_filter.mp hbf).2
      rw [firstIdx_cons_ne _ haw, firstIdx_cons_ne _ hbw]
      exact Nat.succ_lt_succ (firstIdx_filter_lt _ ws a b haf hbf hab)
termination_by L => L.length
decreasing_by
  have := List.length_filter_le (fun x => x ≠ w) ws
  simp only [List.length_cons]; omega

/-- The entries of the frequency map are in first-occurrence order of their
keys among the counted tokens. -/
theorem wf_pairwise_firstIdx (wtok : String → List String) (text : String) :
    (get_word_frequencies wtok text).Pairwise
      (fun p q : String × Nat =>
        firstIdx (filteredTokens wtok text) p.1 < firstIdx (filteredTokens wtok text) q.1) := by
  have h := dedupF_pairwise (filteredTokens wtok text)
  rw [← keysOf_wf wtok text] at h
  simp only [keysOf] at h
  exact (@List.pairwise_map (String × Nat) String Prod.fst
    (fun a b => firstIdx (filteredTokens wtok text) a < firstIdx (filteredTokens wtok text) b)
    (get_word_frequencies wtok text)).mp h

theorem alookup_of_mem :
    ∀ {d : List (String × Nat)}, (keysOf d).Nodup → ∀ {p : String × Nat}, p ∈ d →
      alookup d p.1 = some p.2
  | [], _, p, hp => by simp at hp
  | (k, x) :: rest, hnd, p, hp => by
    have hnd2 : (k :: keysOf rest).Nodup := hnd
    rcases List.mem_cons.mp hp with rfl | hp
    · simp [alookup]
    · have hk : ¬k = p.1 := by
        intro hh
        have h1 : p.1 ∈ keysOf rest := List.mem_map_of_mem Prod.fst hp
        rw [← hh] at h1
        exact (List.nodup_cons.mp hnd2).1 h1
      rw [alookup, if_neg hk]
      exact alookup_of_mem (List.nodup_cons.mp hnd2).2 hp

/-- Every entry of the frequency map carries a positive count equal to the
number of occurrences of its key among the filtered tokens. -/
theorem wf_entry_facts (wtok : String → List String) (text : String) {p : String × Nat}
    (hp : p ∈ get_word_frequencies wtok text) :
    0 < p.2 ∧ p.2 = (filteredTokens wtok text).count p.1 := by
  have hnd : (keysOf (get_word_frequencies wtok text)).Nodup := by
    rw [keysOf_wf]; exact dedupF_nodup _
  exact (alookup_wf_iff _ _ _ _).mp (alookup_of_mem hnd hp)

/-- Every key of the frequency map has length ≥ 3 and is not a stop word. -/
theorem wf_key_props (wtok : String → List String) (text : String) {p : String × Nat}
    (hp : p ∈ get_word_frequencies wtok text) :
    3 ≤ p.1.length ∧ p.1 ∉ STOP_WORDS := by
  have h1 : p.1 ∈ keysOf (get_word_frequencies wtok text) := List.mem_map_of_mem Prod.fst hp
  rw [keysOf_wf] at h1
  have h2 := (mem_dedupF _ _).mp h1
  have h3 := List.mem_filter.mp h2
  simpa using h3.2

/-! ## Claim theorems -/

/-- C2 counterexample: the code does not surface distinguishable typed
failures.  An input that is empty after normalization (`""`, the
`EmptyContent` cause) and an input whose normalized text is non-empty but
yields no keywords on either path (`"the of and"`, the
`NoKeywordsExtracted` cause) make `analyze_text` return the very same
value `None`; the caller cannot tell the two causes apart. -/
theorem c2_failures_not_distinguishable :
    preprocess_text "" = "" ∧
    preprocess_text "the of and" ≠ "" ∧
    extract_keywords_tfidf oneScore noSeg wsTok (preprocess_text "the of and") 50 = [] ∧
    analyze_text oneScore noSeg wsTok "" 50 = analyze_text oneScore noSeg wsTok "the of and" 50 ∧
    analyze_text oneScore noSeg wsTok "" 50 = none := by
  refine ⟨rfl, by decide, by decide, ?_, rfl⟩
  have h1 : analyze_text oneScore noSeg wsTok "" 50 = none := rfl
  have h2 : analyze_text oneScore noSeg wsTok "the of and" 50 = none := by decide
  rw [h1, h2]

/-- C2 (amended): when the normalized text is empty, and likewise when both
extraction paths yield an empty keyword sequence, `analyze_text` fails by
returning the same null result `None`; the two failure causes are not
distinguishable in the value the caller receives. -/
theorem c2_both_failures_return_none (σ : List String → String → ℚ)
    (stok wtok : String → List String) (text : String) (maxW : Nat) :
    (preprocess_text text = "" → analyze_text σ stok wtok text maxW = none) ∧
    (extract_keywords_tfidf σ stok wtok (preprocess_text text) maxW = [] →
      analyze_text σ stok wtok text maxW = none) := by
  unfold analyze_text analyze_text_with
  constructor
  · intro h
    simp [h]
  · intro h
    unfold extract_keywords_tfidf at h
    by_cases hc : preprocess_text text = ""
    · simp [hc]
    · simp [hc, h]

/-- Witness for `c2_both_failures_return_none` at concrete inputs. -/
theorem c2_both_failures_return_none_witness :
    analyze_text oneScore noSeg wsTok "" 50 = none ∧
    analyze_text oneScore noSeg wsTok "the of and" 50 = none :=
  ⟨(c2_both_failures_return_none oneScore noSeg wsTok "" 50).1 (by decide),
   (c2_both_failures_return_none oneScore noSeg wsTok "the of and" 50).2 (by decide)⟩

/-- C4: any failure of the vectorizer run (the primary TF-IDF computation)
is caught at the extraction boundary and converted into the frequency
fallback; and the caller of `analyze` observes a failure (`None`) exactly
when the normalized text is empty or the extraction pipeline (with its
fallback) produced nothing — never via a propagated exception, since the
embedded `analyze` is a total function. -/
theorem c4_exception_containment
    (vecRun : List String → Except VecError (List (String × ℚ)))
    (stok wtok : String → List String) (text : String) (maxW : Nat) (e : VecError) :
    (2 ≤ (segmentsOf stok text).length →
      vecRun (segmentsOf stok text) = .error e →
      extract_keywords_tfidf_with vecRun stok wtok text maxW =
        extract_keywords_frequency wtok text maxW) ∧
    (analyze_text_with vecRun stok wtok text maxW = none ↔
      preprocess_text text = "" ∨
        extract_keywords_tfidf_with vecRun stok wtok (preprocess_text text) maxW = []) := by
  constructor
  · intro h2 herr
    unfold extract_keywords_tfidf_with
    rw [if_neg (by omega), herr]
  · unfold analyze_text_with
    by_cases hc : preprocess_text text = ""
    · simp [hc]
    · by_cases hk :
        extract_keywords_tfidf_with vecRun stok wtok (preprocess_text text) maxW = []
      · simp [hc, hk]
      · simp [hc, hk]

/-- Witness for `c4_exception_containment` at concrete inputs. -/
theorem c4_exception_containment_witness :
    extract_keywords_tfidf_with failVec threeSeg wsTok "cat dog" 50 =
      extract_keywords_frequency wsTok "cat dog" 50 ∧
    (analyze_text_with failVec threeSeg wsTok "cat dog" 50 = none ↔
      preprocess_text "cat dog" = "" ∨
        extract_keywords_tfidf_with failVec threeSeg wsTok (preprocess_text "cat dog") 50 = []) :=
  ⟨(c4_exception_containment failVec threeSeg wsTok "cat dog" 50 .emptyVocabulary).1
      (by decide) rfl,
   (c4_exception_containment failVec threeSeg wsTok "cat dog" 50 .emptyVocabulary).2⟩

/-- C8: on success, the reported `word_count` is the raw token count of the
word-tokenized normalized text, with no stop-word or length filtering; it
can therefore exceed the number of entries of the frequency map used for
ranking (second conjunct: a concrete input where it does). -/
theorem c8_word_count_is_raw_token_count :
    (∀ (σ : List String → String → ℚ) (stok wtok : String → List String)
      (text : String) (maxW : Nat) (r : AnalysisResult),
      analyze_text σ stok wtok text maxW = some r →
      r.word_count = (wtok (pyLower (preprocess_text text))).length) ∧
    (∃ r : AnalysisResult,
      analyze_text oneScore noSeg wsTok "Dogs and dogs and dogs" 50 = some r ∧
      (get_word_frequencies wsTok (preprocess_text "Dogs and dogs and dogs")).length
        < r.word_count) := by
  constructor
  · intro σ stok wtok text maxW r h
    simp only [analyze_text, analyze_text_with] at h
    split_ifs at h
    obtain rfl := Option.some_inj.mp h
    rfl
  · exact ⟨(analyze_text oneScore noSeg wsTok "Dogs and dogs and dogs" 50).getD ⟨[], 0⟩,
      rfl, by decide⟩

/-! Instances making the descending sort relations lawful total preorders. -/

instance : IsTotal (String × Nat) (fun a b => b.2 ≤ a.2) :=
  ⟨fun a b => Nat.le_total b.2 a.2⟩

instance : IsTrans (String × Nat) (fun a b => b.2 ≤ a.2) :=
  ⟨fun _ _ _ h1 h2 => le_trans h2 h1⟩

instance : IsTotal Keyword (fun a b => b.weight ≤ a.weight) :=
  ⟨fun a b => le_total b.weight a.weight⟩

instance : IsTrans Keyword (fun a b => b.weight ≤ a.weight) :=
  ⟨fun _ _ _ h1 h2 => le_trans h2 h1⟩

/-- The sorted frequency list is ordered by count descending with ties in
first-occurrence order. -/
theorem freq_sorted_pairwise (wtok : String → List String) (text : String) :
    (List.insertionSort (fun a b : String × Nat => b.2 ≤ a.2)
        (get_word_frequencies wtok text)).Pairwise
      (fun p q : String × Nat => q.2 < p.2 ∨ (q.2 = p.2 ∧
        firstIdx (filteredTokens wtok text) p.1 < firstIdx (filteredTokens wtok text) q.1)) := by
  have hst := wf_pairwise_firstIdx wtok text
  refine pairwise_insertionSort (fun a b : String × Nat => b.2 ≤ a.2) _ _ (hst.imp ?_)
  intro a b hab
  constructor
  · intro hr
    rcases lt_or_eq_of_le hr with hlt | heq
    · exact Or.inl hlt
    · exact Or.inr ⟨heq, hab⟩
  · intro hnr
    exact Or.inl (by omega)

/-- Witness for `c8_word_count_is_raw_token_count` at a concrete input. -/
theorem c8_word_count_witness :
    ((analyze_text oneScore noSeg wsTok "cat cat" 50).getD ⟨[], 0⟩).word_count
      = (wsTok (pyLower (preprocess_text "cat cat"))).length :=
  c8_word_count_is_raw_token_count.1 oneScore noSeg wsTok "cat cat" 50
    ((analyze_text oneScore noSeg wsTok "cat cat" 50).getD ⟨[], 0⟩) rfl

/-- C3: when segmentation (including the period-splitting fallback) yields
fewer than 2 segments, extraction takes the frequency fallback path; the
result is ordered by whole-document frequency descending with ties in
first-occurrence order of the counted tokens, is truncated to `maxTerms`,
and every weight is `round(count / topCount, 3)` where `topCount` is the
frequency of the first returned entry. -/
theorem c3_fallback_frequency_ranking (σ : List String → String → ℚ)
    (stok wtok : String → List String) (text : String) (maxW : Nat)
    (h : (segmentsOf stok text).length < 2) :
    extract_keywords_tfidf σ stok wtok text maxW
      = extract_keywords_frequency wtok text maxW ∧
    (extract_keywords_frequency wtok text maxW).length ≤ maxW ∧
    (extract_keywords_frequency wtok text maxW).Pairwise
      (fun a b => b.frequency < a.frequency ∨
        (b.frequency = a.frequency ∧
          firstIdx (filteredTokens wtok text) a.word
            < firstIdx (filteredTokens wtok text) b.word)) ∧
    (∀ hne : extract_keywords_frequency wtok text maxW ≠ [],
      ∀ k ∈ extract_keywords_frequency wtok text maxW,
        k.weight = round3 ((k.frequency : ℚ) /
          (((extract_keywords_frequency wtok text maxW).head hne).frequency : ℚ))) := by
  refine ⟨?_, ?_, ?_, ?_⟩
  · unfold extract_keywords_tfidf extract_keywords_tfidf_with
    rw [if_pos h]
  · simp only [extract_keywords_frequency]
    split_ifs with h0
    · simp
    · rw [List.length_map]
      exact le_trans (List.length_take_le _ _) le_rfl
  · simp only [extract_keywords_frequency]
    split_ifs with h0
    · simp
    · have hp : (List.insertionSort (fun a b : String × Nat => b.2 ≤ a.2)
          (get_word_frequencies wtok text)).Pairwise
            (fun p q : String × Nat => q.2 < p.2 ∨ (q.2 = p.2 ∧
              firstIdx (filteredTokens wtok text) p.1
                < firstIdx (filteredTokens wtok text) q.1)) :=
        freq_sorted_pairwise wtok text
      have hp2 := hp.sublist (List.take_sublist maxW _)
      exact List.pairwise_map.mpr hp2
  · simp only [extract_keywords_frequency]
    split_ifs with h0
    · intro hne; exact absurd rfl hne
    · intro hne k hk
      obtain ⟨p, _, rfl⟩ := List.mem_map.mp hk
      rw [List.head_map]

/-! ### Membership chains through the extraction pipeline -/

theorem mapId_of_fixed {f : Char → Char} :
    ∀ {l : List Char}, (∀ c ∈ l, f c = c) → l.map f = l
  | [], _ => rfl
  | c :: cs, h => by
    rw [List.map_cons, h c (List.mem_cons_self _ _),
      mapId_of_fixed (fun x hx => h x (List.mem_cons_of_mem _ hx))]

theorem underscoreJoin_of_no_space {s : String} (h : ' ' ∉ s.data) :
    underscoreJoin s = s := by
  unfold underscoreJoin
  have h2 : s.data.map (fun c => if c = ' ' then '_' else c) = s.data :=
    mapId_of_fixed (fun c hc => by
      have hc2 : ¬c = ' ' := fun he => h (he ▸ hc)
      simp [hc2])
  rw [h2]

theorem underscoreJoin_of_space {s : String} (h : ' ' ∈ s.data) :
    '_' ∈ (underscoreJoin s).data := by
  unfold underscoreJoin
  exact List.mem_map.mpr ⟨' ', h, by simp⟩

theorem mem_zipWith_pair {α : Type} {f : α → α → α} :
    ∀ {l1 l2 : List α} {x}, x ∈ List.zipWith f l1 l2 →
      ∃ a b, x = f a b ∧ a ∈ l1 ∧ b ∈ l2
  | [], _, x, hx => by simp at hx
  | _ :: _, [], x, hx => by simp at hx
  | a :: l1, b :: l2, x, hx => by
    rw [List.zipWith_cons_cons] at hx
    rcases List.mem_cons.mp hx with rfl | hx
    · exact ⟨a, b, rfl, List.mem_cons_self _ _, List.mem_cons_self _ _⟩
    · obtain ⟨a2, b2, he, ha, hb⟩ := mem_zipWith_pair hx
      exact ⟨a2, b2, he, List.mem_cons_of_mem _ ha, List.mem_cons_of_mem _ hb⟩

theorem sklearnTokens_props {d : String} {t : String} (ht : t ∈ sklearnTokens d) :
    (∀ c ∈ t.data, c.isAlpha) ∧ 3 ≤ t.length := by
  unfold sklearnTokens at ht
  obtain ⟨r, hr, rfl⟩ := List.mem_map.mp ht
  have h2 := List.mem_filter.mp hr
  have h3 : (r.all Char.isAlpha ∧ 3 ≤ r.length) := by simpa using h2.2
  refine ⟨?_, ?_⟩
  · intro c hc
    exact List.all_eq_true.mp h3.1 c hc
  · exact h3.2

theorem mem_docNgrams {d t : String} (ht : t ∈ docNgrams d) :
    (t ∈ sklearnTokens d ∧ t ∉ STOP_WORDS) ∨
    ∃ a b, t = a ++ " " ++ b ∧ a ∈ sklearnTokens d ∧ b ∈ sklearnTokens d := by
  unfold docNgrams at ht
  rcases List.mem_append.mp ht with h | h
  · have h2 := List.mem_filter.mp h
    exact Or.inl ⟨h2.1, by simpa using h2.2⟩
  · obtain ⟨a, b, he, ha, hb⟩ := mem_zipWith_pair h
    refine Or.inr ⟨a, b, he, (List.mem_filter.mp ha).1,
      (List.mem_filter.mp (List.mem_of_mem_tail hb)).1⟩

theorem data_bigram (a b : String) :
    (a ++ " " ++ b).data = a.data ++ [' '] ++ b.data := by
  simp [String.data_append]

theorem mem_buildVocab {segs : List String} {cap : Nat} {t : String}
    (ht : t ∈ buildVocab segs cap) : ∃ d ∈ segs, t ∈ docNgrams d := by
  unfold buildVocab at ht
  have hv1 : t ∈ (List.insertionSort strLe (dedupF (segs.map docNgrams).flatten)).filter
      (fun t => 1 ≤ docFreq segs t ∧ maxDfOk (docFreq segs t) segs.length) := by
    split_ifs at ht with hlen
    · exact ht
    · exact (List.mem_filter.mp ht).1
  have h0 := (List.mem_filter.mp hv1).1
  have h1 := (List.mem_insertionSort strLe).mp h0
  have h2 := (mem_dedupF _ _).mp h1
  obtain ⟨l, hl, hmem⟩ := List.mem_flatten.mp h2
  obtain ⟨d, hd, rfl⟩ := List.mem_map.mp hl
  exact ⟨d, hd, hmem⟩

theorem mem_buildWordData {fs : List (String × ℚ)} {wf : List (String × Nat)} {k : Keyword}
    (hk : k ∈ buildWordData fs wf) :
    ∃ p ∈ fs, 0 < p.2 ∧
      k = { word := underscoreJoin p.1, weight := p.2,
            frequency := (alookup wf p.1).getD 1 } := by
  simp only [buildWordData] at hk
  obtain ⟨p, hp, he⟩ := List.mem_filterMap.mp hk
  by_cases h0 : 0 < p.2
  · rw [if_pos h0] at he
    exact ⟨p, hp, h0, (Option.some_inj.mp he).symm⟩
  · rw [if_neg h0] at he
    simp at he

theorem mem_normalizeWeights {l : List Keyword} {k : Keyword}
    (hk : k ∈ normalizeWeights l) :
    ∃ j ∈ l, k.word = j.word ∧ k.frequency = j.frequency := by
  cases l with
  | nil => simp [normalizeWeights] at hk
  | cons k0 rest =>
    simp only [normalizeWeights] at hk
    split_ifs at hk with h0
    · obtain ⟨j, hj, rfl⟩ := List.mem_map.mp hk
      exact ⟨j, hj, rfl, rfl⟩
    · exact ⟨k, hk, rfl, rfl⟩

theorem fitTransform_ok {σ : List String → String → ℚ} {segs : List String} {cap : Nat}
    {fs : List (String × ℚ)} (h : fitTransform σ segs cap = .ok fs) :
    fs = (buildVocab segs cap).map (fun t => (t, σ segs t)) ∧ buildVocab segs cap ≠ [] := by
  simp only [fitTransform] at h
  split_ifs at h with h0
  injection h with h2
  exact ⟨h2.symm, h0⟩

theorem mem_extract_frequency {wtok : String → List String} {text : String} {maxW : Nat}
    {k : Keyword} (hk : k ∈ extract_keywords_frequency wtok text maxW) :
    ∃ p ∈ get_word_frequencies wtok text, k.word = p.1 ∧ k.frequency = p.2 := by
  simp only [extract_keywords_frequency] at hk
  split_ifs at hk with h0
  · simp at hk
  · obtain ⟨p, hp, rfl⟩ := List.mem_map.mp hk
    have hp2 := List.take_subset _ _ hp
    have hp3 := (List.mem_insertionSort _).mp hp2
    exact ⟨p, hp3, rfl, rfl⟩

/-- Every keyword returned by `extract_keywords_tfidf` either comes off the
frequency fallback, or is the underscore-display form of a vocabulary
feature with the default-1 frequency lookup attached. -/
theorem mem_extract_tfidf {σ : List String → String → ℚ}
    {stok wtok : String → List String} {text : String} {maxW : Nat} {k : Keyword}
    (hk : k ∈ extract_keywords_tfidf σ stok wtok text maxW) :
    k ∈ extract_keywords_frequency wtok text maxW ∨
    ∃ t ∈ buildVocab (segmentsOf stok text) (maxW * 3),
      k.word = underscoreJoin t ∧
      k.frequency = (alookup (get_word_frequencies wtok text) t).getD 1 := by
  simp only [extract_keywords_tfidf, extract_keywords_tfidf_with] at hk
  split_ifs at hk with hseg
  · exact Or.inl hk
  · cases hv : fitTransform σ (segmentsOf stok text) (maxW * 3) with
    | error e =>
      rw [hv] at hk
      exact Or.inl hk
    | ok fs =>
      rw [hv] at hk
      right
      obtain ⟨hfs, _⟩ := fitTransform_ok hv
      have hk2 := List.take_subset _ _ hk
      obtain ⟨j, hj, hw, hf⟩ := mem_normalizeWeights hk2
      have hj2 := (List.mem_insertionSort _).mp hj
      obtain ⟨p, hp, _, rfl⟩ := mem_buildWordData hj2
      rw [hfs] at hp
      obtain ⟨t, htv, rfl⟩ := List.mem_map.mp hp
      exact ⟨t, htv, by simpa using hw, by simpa using hf⟩

/-- C5: on both extraction paths no returned unigram term (a term without
the bigram joiner) is a stop word, and every such term has length at least
3; and the fallback frequency map counts exactly the word-tokens of length
≥ 3 that are not stop words. -/
theorem c5_stop_word_and_length_filter (σ : List String → String → ℚ)
    (stok wtok : String → List String) (text : String) (maxW : Nat) :
    (∀ k ∈ extract_keywords_tfidf σ stok wtok text maxW,
      '_' ∉ k.word.data → k.word ∉ STOP_WORDS ∧ 3 ≤ k.word.length) ∧
    (∀ w c, alookup (get_word_frequencies wtok text) w = some c ↔
      (0 < c ∧ c = ((wtok text).filter
        (fun w => 3 ≤ w.length ∧ w ∉ STOP_WORDS)).count w)) := by
  constructor
  · intro k hk hnu
    rcases mem_extract_tfidf hk with hfb | ⟨t, htv, hword, _⟩
    · obtain ⟨p, hp, hw, _⟩ := mem_extract_frequency hfb
      have h2 := wf_key_props wtok text hp
      rw [hw]
      exact ⟨h2.2, h2.1⟩
    · obtain ⟨d, _, hng⟩ := mem_buildVocab htv
      rcases mem_docNgrams hng with ⟨htok, hstop⟩ | ⟨a, b, rfl, _, _⟩
      · have hprops := sklearnTokens_props htok
        have hnosp : ' ' ∉ t.data := by
          intro hsp
          have := hprops.1 ' ' hsp
          simp [Char.isAlpha] at this
        rw [hword, underscoreJoin_of_no_space hnosp]
        exact ⟨hstop, hprops.2⟩
      · exfalso
        apply hnu
        rw [hword]
        apply underscoreJoin_of_space
        rw [data_bigram]
        simp
  · intro w c
    exact alookup_wf_iff wtok text w c

/-- Witness for `c5_stop_word_and_length_filter` at a concrete input. -/
theorem c5_stop_word_and_length_filter_witness :
    (((extract_keywords_tfidf oneScore noSeg wsTok "cat dog" 50).head
        (by decide)).word ∉ STOP_WORDS ∧
      3 ≤ ((extract_keywords_tfidf oneScore noSeg wsTok "cat dog" 50).head
        (by decide)).word.length) ∧
    (alookup (get_word_frequencies wsTok "cat dog") "cat" = some 1 ↔
      (0 < 1 ∧ 1 = ((wsTok "cat dog").filter
        (fun w => 3 ≤ w.length ∧ w ∉ STOP_WORDS)).count "cat")) :=
  ⟨(c5_stop_word_and_length_filter oneScore noSeg wsTok "cat dog" 50).1 _
      (List.head_mem _) (by decide),
   (c5_stop_word_and_length_filter oneScore noSeg wsTok "cat dog" 50).2 "cat" 1⟩

/-! ### C6: the frequency attachment of the primary path -/

/-- The inverse of the display transformation: underscores back to spaces
(recovers the vectorizer's space-joined feature string from the displayed
term). -/
def spaceJoin (s : String) : String :=
  String.mk (s.data.map (fun c => if c = '_' then ' ' else c))

theorem spaceJoin_underscoreJoin {s : String} (h : '_' ∉ s.data) :
    spaceJoin (underscoreJoin s) = s := by
  unfold spaceJoin underscoreJoin
  simp only [List.map_map]
  have h2 : s.data.map ((fun c => if c = '_' then ' ' else c) ∘
      (fun c => if c = ' ' then '_' else c)) = s.data := by
    apply mapId_of_fixed
    intro c hc
    have hcu : ¬c = '_' := fun he => h (he ▸ hc)
    by_cases hcs : c = ' '
    · simp [hcs]
    · simp [hcs, hcu]
  rw [h2]

theorem buildVocab_no_underscore {segs : List String} {cap : Nat} {t : String}
    (ht : t ∈ buildVocab segs cap) : '_' ∉ t.data := by
  obtain ⟨d, _, hng⟩ := mem_buildVocab ht
  rcases mem_docNgrams hng with ⟨htok, _⟩ | ⟨a, b, rfl, ha, hb⟩
  · intro hu
    have := (sklearnTokens_props htok).1 '_' hu
    simp [Char.isAlpha] at this
  · intro hu
    rw [data_bigram] at hu
    rcases List.mem_append.mp hu with hu | hu
    · rcases List.mem_append.mp hu with hu | hu
      · have := (sklearnTokens_props ha).1 '_' hu
        simp [Char.isAlpha] at this
      · simp at hu
    · have := (sklearnTokens_props hb).1 '_' hu
      simp [Char.isAlpha] at this

theorem alookup_wf_getD_pos (wtok : String → List String) (text t : String) :
    1 ≤ (alookup (get_word_frequencies wtok text) t).getD 1 := by
  cases h : alookup (get_word_frequencies wtok text) t with
  | none => simp
  | some v =>
    have h2 := (alookup_wf_iff wtok text t v).mp h
    simp only [Option.getD_some]
    omega

/-- C6: the frequency field of every returned keyword is an integer ≥ 1; and
on the primary path each returned keyword displays a vocabulary feature with
spaces replaced by underscores, while its frequency field is the result of
looking up the original (space-joined) feature string in the whole-document
frequency map, defaulting to 1 when absent. -/
theorem c6_frequency_attachment (σ : List String → String → ℚ)
    (stok wtok : String → List String) (text : String) (maxW : Nat) :
    (∀ k ∈ extract_keywords_tfidf σ stok wtok text maxW, 1 ≤ k.frequency) ∧
    (∀ fs, 2 ≤ (segmentsOf stok text).length →
      fitTransform σ (segmentsOf stok text) (maxW * 3) = .ok fs →
      ∀ k ∈ extract_keywords_tfidf σ stok wtok text maxW,
        spaceJoin k.word ∈ buildVocab (segmentsOf stok text) (maxW * 3) ∧
        k.word = underscoreJoin (spaceJoin k.word) ∧
        k.frequency
          = (alookup (get_word_frequencies wtok text) (spaceJoin k.word)).getD 1) := by
  constructor
  · intro k hk
    rcases mem_extract_tfidf hk with hfb | ⟨t, _, _, hfreq⟩
    · obtain ⟨p, hp, _, hf⟩ := mem_extract_frequency hfb
      have h2 := wf_entry_facts wtok text hp
      omega
    · rw [hfreq]
      exact alookup_wf_getD_pos wtok text t
  · intro fs hseg hok k hk
    simp only [extract_keywords_tfidf, extract_keywords_tfidf_with] at hk
    rw [if_neg (by omega), hok] at hk
    obtain ⟨hfs, _⟩ := fitTransform_ok hok
    have hk2 := List.take_subset _ _ hk
    obtain ⟨j, hj, hw, hf⟩ := mem_normalizeWeights hk2
    have hj2 := (List.mem_insertionSort _).mp hj
    obtain ⟨p, hp, _, rfl⟩ := mem_buildWordData hj2
    rw [hfs] at hp
    obtain ⟨t, htv, rfl⟩ := List.mem_map.mp hp
    have hsj : spaceJoin k.word = t := by
      rw [hw]
      simp only []
      exact spaceJoin_underscoreJoin (buildVocab_no_underscore htv)
    refine ⟨hsj ▸ htv, ?_, ?_⟩
    · rw [hsj, hw]
    · rw [hsj, hf]

/-- Witness for `c6_frequency_attachment` at a concrete input taking the
primary path. -/
theorem c6_frequency_attachment_witness :
    spaceJoin ((extract_keywords_tfidf oneScore threeSeg wsTok "alpha beta alpha" 5).head
        (by decide)).word
      ∈ buildVocab (segmentsOf threeSeg "alpha beta alpha") (5 * 3) ∧
    ((extract_keywords_tfidf oneScore threeSeg wsTok "alpha beta alpha" 5).head
        (by decide)).word
      = underscoreJoin (spaceJoin
          ((extract_keywords_tfidf oneScore threeSeg wsTok "alpha beta alpha" 5).head
            (by decide)).word) ∧
    ((extract_keywords_tfidf oneScore threeSeg wsTok "alpha beta alpha" 5).head
        (by decide)).frequency
      = (alookup (get_word_frequencies wsTok "alpha beta alpha")
          (spaceJoin ((extract_keywords_tfidf oneScore threeSeg wsTok
            "alpha beta alpha" 5).head (by decide)).word)).getD 1 :=
  (c6_frequency_attachment oneScore threeSeg wsTok "alpha beta alpha" 5).2
    ((buildVocab (segmentsOf threeSeg "alpha beta alpha") (5 * 3)).map
      (fun t => (t, oneScore (segmentsOf threeSeg "alpha beta alpha") t)))
    (by decide) rfl _ (List.head_mem _)

/-- Witness for `c3_fallback_frequency_ranking` at a concrete input. -/
theorem c3_fallback_frequency_ranking_witness :
    extract_keywords_tfidf oneScore noSeg wsTok "cat cat dog bird cat dog" 2
      = extract_keywords_frequency wsTok "cat cat dog bird cat dog" 2 ∧
    (extract_keywords_frequency wsTok "cat cat dog bird cat dog" 2).length ≤ 2 ∧
    (extract_keywords_frequency wsTok "cat cat dog bird cat dog" 2).Pairwise
      (fun a b => b.frequency < a.frequency ∨
        (b.frequency = a.frequency ∧
          firstIdx (filteredTokens wsTok "cat cat dog bird cat dog") a.word
            < firstIdx (filteredTokens wsTok "cat cat dog bird cat dog") b.word)) ∧
    (∀ hne : extract_keywords_frequency wsTok "cat cat dog bird cat dog" 2 ≠ [],
      ∀ k ∈ extract_keywords_frequency wsTok "cat cat dog bird cat dog" 2,
        k.weight = round3 ((k.frequency : ℚ) /
          (((extract_keywords_frequency wsTok "cat cat dog bird cat dog" 2).head
            hne).frequency : ℚ))) :=
  c3_fallback_frequency_ranking oneScore noSeg wsTok "cat cat dog bird cat dog" 2 (by decide)

/-! ### C7: truncation and the vocabulary cap -/

theorem extract_frequency_length_le (wtok : String → List String) (text : String)
    (maxW : Nat) : (extract_keywords_frequency wtok text maxW).length ≤ maxW := by
  simp only [extract_keywords_frequency]
  split_ifs with h0
  · simp
  · rw [List.length_map]
    exact List.length_take_le _ _

theorem extract_frequency_length_eq (wtok : String → List String) (text : String)
    (maxW : Nat) (h : maxW ≤ (get_word_frequencies wtok text).length) (h1 : 1 ≤ maxW) :
    (extract_keywords_frequency wtok text maxW).length = maxW := by
  simp only [extract_keywords_frequency]
  have hlen : ((List.insertionSort (fun a b : String × Nat => b.2 ≤ a.2)
      (get_word_frequencies wtok text)).take maxW).length = maxW := by
    rw [List.length_take, List.length_insertionSort]
    omega
  split_ifs with h0
  · rw [h0] at hlen
    simp at hlen
    omega
  · rw [List.length_map]
    exact hlen

theorem normalizeWeights_length (l : List Keyword) :
    (normalizeWeights l).length = l.length := by
  cases l with
  | nil => rfl
  | cons k0 rest =>
    simp only [normalizeWeights]
    split_ifs with h0
    · rw [List.length_map]
    · rfl

/-- C7: the returned keyword sequence never exceeds `maxTerms` entries; when
the post-filter candidate pool (primary path: the positive-score `word_data`
list; fallback path: the frequency map) has at least `maxTerms` entries,
exactly `maxTerms` are returned; and the candidate vocabulary is capped at
`maxTerms × 3` distinct terms. -/
theorem c7_truncation_and_vocabulary_cap (σ : List String → String → ℚ)
    (stok wtok : String → List String) (text : String) (maxW : Nat) (h1 : 1 ≤ maxW) :
    (extract_keywords_tfidf σ stok wtok text maxW).length ≤ maxW ∧
    (buildVocab (segmentsOf stok text) (maxW * 3)).length ≤ maxW * 3 ∧
    (∀ fs, 2 ≤ (segmentsOf stok text).length →
      fitTransform σ (segmentsOf stok text) (maxW * 3) = .ok fs →
      maxW ≤ (buildWordData fs (get_word_frequencies wtok text)).length →
      (extract_keywords_tfidf σ stok wtok text maxW).length = maxW) ∧
    ((segmentsOf stok text).length < 2 →
      maxW ≤ (get_word_frequencies wtok text).length →
      (extract_keywords_tfidf σ stok wtok text maxW).length = maxW) := by
  refine ⟨?_, ?_, ?_, ?_⟩
  · simp only [extract_keywords_tfidf, extract_keywords_tfidf_with]
    split_ifs with hseg
    · exact extract_frequency_length_le wtok text maxW
    · cases hv : fitTransform σ (segmentsOf stok text) (maxW * 3) with
      | error e => exact extract_frequency_length_le wtok text maxW
      | ok fs => exact List.length_take_le _ _
  · simp only [buildVocab]
    split_ifs with hlen
    · exact hlen
    · have hnd : (vocabDfFiltered (segmentsOf stok text)).Nodup := by
        unfold vocabDfFiltered vocabAll
        exact ((List.perm_insertionSort strLe _).nodup_iff.mpr (dedupF_nodup _)).filter _
      have hsub : (vocabDfFiltered (segmentsOf stok text)).filter (fun t =>
          t ∈ (List.insertionSort (fun a b : String =>
            termCount (segmentsOf stok text) b ≤ termCount (segmentsOf stok text) a)
            (vocabDfFiltered (segmentsOf stok text))).take (maxW * 3))
          ⊆ (List.insertionSort (fun a b : String =>
            termCount (segmentsOf stok text) b ≤ termCount (segmentsOf stok text) a)
            (vocabDfFiltered (segmentsOf stok text))).take (maxW * 3) := by
        intro x hx
        have := (List.mem_filter.mp hx).2
        simpa using this
      have := ((hnd.filter _).subperm hsub).length_le
      calc ((vocabDfFiltered (segmentsOf stok text)).filter _).length
          ≤ _ := this
        _ ≤ maxW * 3 := List.length_take_le _ _
  · intro fs hseg hok hpool
    simp only [extract_keywords_tfidf, extract_keywords_tfidf_with]
    rw [if_neg (by omega), hok]
    rw [List.length_take, normalizeWeights_length, List.length_insertionSort]
    omega
  · intro hseg hpool
    simp only [extract_keywords_tfidf, extract_keywords_tfidf_with]
    rw [if_pos hseg]
    exact extract_frequency_length_eq wtok text maxW hpool h1

/-- Witness for `c7_truncation_and_vocabulary_cap` at concrete inputs,
covering the fallback exact-truncation case and the primary-path
exact-truncation case. -/
theorem c7_truncation_and_vocabulary_cap_witness :
    (extract_keywords_tfidf oneScore noSeg wsTok "cat cat dog bird cat dog" 2).length ≤ 2 ∧
    (extract_keywords_tfidf oneScore noSeg wsTok "cat cat dog bird cat dog" 2).length = 2 ∧
    (extract_keywords_tfidf oneScore threeSeg wsTok "alpha beta alpha" 1).length = 1 :=
  ⟨(c7_truncation_and_vocabulary_cap oneScore noSeg wsTok "cat cat dog bird cat dog" 2
      (by decide)).1,
   (c7_truncation_and_vocabulary_cap oneScore noSeg wsTok "cat cat dog bird cat dog" 2
      (by decide)).2.2.2 (by decide) (by decide),
   (c7_truncation_and_vocabulary_cap oneScore threeSeg wsTok "alpha beta alpha" 1
      (by decide)).2.2.1
     ((buildVocab (segmentsOf threeSeg "alpha beta alpha") (1 * 3)).map
       (fun t => (t, oneScore (segmentsOf threeSeg "alpha beta alpha") t)))
     (by decide) rfl (by decide)⟩

/-! ### C1: weight normalization and sortedness -/

theorem head_max_of_sorted {α β : Type} [Preorder β] (key : α → β) :
    ∀ {l : List α}, l.Sorted (fun a b => key b ≤ key a) → ∀ (h0 : l ≠ []),
      ∀ p ∈ l, key p ≤ key (l.head h0)
  | [], _, h0, _, _ => absurd rfl h0
  | h :: rest, hs, _, p, hp => by
    rcases List.mem_cons.mp hp with rfl | hp
    · exact le_refl _
    · exact List.rel_of_sorted_cons hs p hp

theorem buildWordData_pos {fs : List (String × ℚ)} {wf : List (String × Nat)}
    {k : Keyword} (hk : k ∈ buildWordData fs wf) : 0 < k.weight := by
  obtain ⟨p, _, hpos, rfl⟩ := mem_buildWordData hk
  exact hpos

theorem round3_div_bounds {a m : ℚ} (ha : 0 ≤ a) (hm : 0 < m) (ham : a ≤ m) :
    0 ≤ round3 (a / m) ∧ round3 (a / m) ≤ 1 :=
  ⟨round3_nonneg (div_nonneg ha (le_of_lt hm)),
   round3_le_one ((div_le_one hm).mpr ham)⟩

/-- The three C1 facts for the fallback path. -/
theorem extract_frequency_c1 (wtok : String → List String) (text : String) (maxW : Nat) :
    (extract_keywords_frequency wtok text maxW).Pairwise
      (fun a b => b.weight ≤ a.weight) ∧
    (∀ k ∈ extract_keywords_frequency wtok text maxW,
      0 ≤ k.weight ∧ k.weight ≤ 1 ∧ ∃ n : ℤ, k.weight = (n : ℚ) / 1000) ∧
    (∀ k, (extract_keywords_frequency wtok text maxW).head? = some k →
      k.weight = 1) := by
  have hsorted : (List.insertionSort (fun a b : String × Nat => b.2 ≤ a.2)
      (get_word_frequencies wtok text)).Sorted (fun a b => b.2 ≤ a.2) :=
    List.sorted_insertionSort _ _
  have htops : ((List.insertionSort (fun a b : String × Nat => b.2 ≤ a.2)
      (get_word_frequencies wtok text)).take maxW).Sorted (fun a b => b.2 ≤ a.2) :=
    List.Pairwise.sublist (List.take_sublist maxW _) hsorted
  simp only [extract_keywords_frequency]
  split_ifs with h0
  · refine ⟨by simp, by simp, by simp⟩
  · have hmem : ∀ p ∈ (List.insertionSort (fun a b : String × Nat => b.2 ≤ a.2)
        (get_word_frequencies wtok text)).take maxW,
        p ∈ get_word_frequencies wtok text := by
      intro p hp
      exact (List.mem_insertionSort _).mp (List.take_subset _ _ hp)
    have hmaxpos : 0 < (((List.insertionSort (fun a b : String × Nat => b.2 ≤ a.2)
        (get_word_frequencies wtok text)).take maxW).head h0).2 :=
      (wf_entry_facts wtok text (hmem _ (List.head_mem h0))).1
    have hmaxq : (0 : ℚ) < ((((List.insertionSort (fun a b : String × Nat => b.2 ≤ a.2)
        (get_word_frequencies wtok text)).take maxW).head h0).2 : ℚ) := by
      exact_mod_cast hmaxpos
    have hle : ∀ p ∈ (List.insertionSort (fun a b : String × Nat => b.2 ≤ a.2)
        (get_word_frequencies wtok text)).take maxW,
        p.2 ≤ (((List.insertionSort (fun a b : String × Nat => b.2 ≤ a.2)
          (get_word_frequencies wtok text)).take maxW).head h0).2 :=
      head_max_of_sorted (fun p : String × Nat => p.2) htops h0
    refine ⟨?_, ?_, ?_⟩
    · refine List.pairwise_map.mpr (htops.imp ?_)
      intro p q hpq
      simp only []
      exact round3_mono ((div_le_div_iff_of_pos_right hmaxq).mpr (by exact_mod_cast hpq))
    · intro k hk
      obtain ⟨p, hp, rfl⟩ := List.mem_map.mp hk
      have hb := round3_div_bounds (a := (p.2 : ℚ)) (by positivity) hmaxq
        (by exact_mod_cast hle p hp)
      exact ⟨hb.1, hb.2, ⟨_, rfl⟩⟩
    · intro k hk
      rw [List.head?_eq_head (by simpa using h0), List.head_map] at hk
      obtain rfl := Option.some_inj.mp hk.symm
      simp only []
      rw [div_self (ne_of_gt hmaxq), round3_one]

/-- The three C1 facts for the primary path's post-processing. -/
theorem tfidf_post_c1 (fs : List (String × ℚ)) (wf : List (String × Nat)) (maxW : Nat) :
    ((normalizeWeights (List.insertionSort (fun a b : Keyword => b.weight ≤ a.weight)
        (buildWordData fs wf))).take maxW).Pairwise
      (fun a b => b.weight ≤ a.weight) ∧
    (∀ k ∈ (normalizeWeights (List.insertionSort (fun a b : Keyword => b.weight ≤ a.weight)
        (buildWordData fs wf))).take maxW,
      0 ≤ k.weight ∧ k.weight ≤ 1 ∧ ∃ n : ℤ, k.weight = (n : ℚ) / 1000) ∧
    (∀ k, ((normalizeWeights (List.insertionSort (fun a b : Keyword => b.weight ≤ a.weight)
        (buildWordData fs wf))).take maxW).head? = some k →
      k.weight = 1) := by
  have hsorted : (List.insertionSort (fun a b : Keyword => b.weight ≤ a.weight)
      (buildWordData fs wf)).Sorted (fun a b => b.weight ≤ a.weight) :=
    List.sorted_insertionSort _ _
  cases hs : List.insertionSort (fun a b : Keyword => b.weight ≤ a.weight)
      (buildWordData fs wf) with
  | nil => simp [normalizeWeights, hs]
  | cons k0 rest =>
    have hmemwd : ∀ k ∈ k0 :: rest, k ∈ buildWordData fs wf := by
      intro k hk
      rw [← hs] at hk
      exact (List.mem_insertionSort _).mp hk
    have hk0pos : 0 < k0.weight := buildWordData_pos (hmemwd k0 (List.mem_cons_self _ _))
    have hsort2 : (k0 :: rest).Sorted (fun a b : Keyword => b.weight ≤ a.weight) :=
      hs ▸ hsorted
    have hle : ∀ k ∈ k0 :: rest, k.weight ≤ k0.weight := by
      intro k hk
      exact head_max_of_sorted (fun k : Keyword => k.weight) hsort2 (by simp) k hk
    simp only [hs, normalizeWeights, if_pos hk0pos]
    refine ⟨?_, ?_, ?_⟩
    · refine List.Pairwise.sublist (List.take_sublist maxW _)
        (List.pairwise_map.mpr (hsort2.imp ?_))
      intro a b hab
      simp only []
      exact round3_mono ((div_le_div_iff_of_pos_right hk0pos).mpr hab)
    · intro k hk
      obtain ⟨j, hj, rfl⟩ := List.mem_map.mp (List.take_subset _ _ hk)
      have hjpos : 0 < j.weight := buildWordData_pos (hmemwd j hj)
      have hb := round3_div_bounds (le_of_lt hjpos) hk0pos (hle j hj)
      exact ⟨hb.1, hb.2, ⟨_, rfl⟩⟩
    · intro k hk
      cases maxW with
      | zero => simp at hk
      | succ m =>
        simp only [List.map_cons, List.take_succ_cons, List.head?_cons] at hk
        obtain rfl := Option.some_inj.mp hk.symm
        simp only []
        rw [div_self (ne_of_gt hk0pos), round3_one]

/-- C1: whenever keyword extraction (primary or fallback path) returns a
non-empty sequence, the entries are sorted by weight descending, every
weight lies in `[0, 1]` and is an exact multiple of `1/1000` (rounded to 3
decimal places), and the first — hence maximum-weight — entry has weight
exactly 1. -/
theorem c1_weights_sorted_normalized_rounded (σ : List String → String → ℚ)
    (stok wtok : String → List String) (text : String) (maxW : Nat) :
    (extract_keywords_tfidf σ stok wtok text maxW).Pairwise
      (fun a b => b.weight ≤ a.weight) ∧
    (∀ k ∈ extract_keywords_tfidf σ stok wtok text maxW,
      0 ≤ k.weight ∧ k.weight ≤ 1 ∧ ∃ n : ℤ, k.weight = (n : ℚ) / 1000) ∧
    (∀ k, (extract_keywords_tfidf σ stok wtok text maxW).head? = some k →
      k.weight = 1) := by
  simp only [extract_keywords_tfidf, extract_keywords_tfidf_with]
  split_ifs with hseg
  · exact extract_frequency_c1 wtok text maxW
  · cases hv : fitTransform σ (segmentsOf stok text) (maxW * 3) with
    | error e => exact extract_frequency_c1 wtok text maxW
    | ok fs => exact tfidf_post_c1 fs (get_word_frequencies wtok text) maxW

/-- Witness for `c1_weights_sorted_normalized_rounded`: a concrete run whose
head keyword exists and has weight exactly 1. -/
theorem c1_weights_sorted_normalized_rounded_witness :
    (0 ≤ ((extract_keywords_tfidf oneScore noSeg wsTok "cat cat dog" 50).head
        (by decide)).weight ∧
      ((extract_keywords_tfidf oneScore noSeg wsTok "cat cat dog" 50).head
        (by decide)).weight ≤ 1 ∧
      ∃ n : ℤ, ((extract_keywords_tfidf oneScore noSeg wsTok "cat cat dog" 50).head
        (by decide)).weight = (n : ℚ) / 1000) ∧
    ((extract_keywords_tfidf oneScore noSeg wsTok "cat cat dog" 50).head
        (by decide)).weight = 1 :=
  ⟨(c1_weights_sorted_normalized_rounded oneScore noSeg wsTok "cat cat dog" 50).2.1 _
      (List.head_mem _),
   (c1_weights_sorted_normalized_rounded oneScore noSeg wsTok "cat cat dog" 50).2.2 _
      (List.head?_eq_head (by decide))⟩

/-! ### Shape invariants of the normalizer (claim C9) -/

/-- Characters of a `scanSub` output all come from its input. -/
theorem scanSub_subset (M : List Char → Option Nat) :
    ∀ (l : List Char) (c : Char), c ∈ scanSub M l → c ∈ l
  | [], c => by intro h; simp [scanSub, scanSubAux] at h
  | x :: cs, c => by
    intro h
    cases hM : M (x :: cs) with
    | none =>
      rw [scanSub_cons_none hM] at h
      rcases List.mem_cons.mp h with rfl | h2
      · exact List.mem_cons_self _ _
      · exact List.mem_cons_of_mem _ (scanSub_subset M cs c h2)
    | some n =>
      rw [scanSub_cons_some hM] at h
      exact List.mem_cons_of_mem _
        (List.drop_subset _ _ (scanSub_subset M (cs.drop (n - 1)) c h))
termination_by l _ => l.length
decreasing_by
  · simp only [List.length_cons]; omega
  · simp only [List.length_drop, List.length_cons]; omega

/-- Characters of a `scanNum` output all come from its input. -/
theorem scanNum_subset :
    ∀ (prev : Option Char) (l : List Char) (c : Char), c ∈ scanNum prev l → c ∈ l
  | _, [], c => by intro h; simp [scanNum, scanNumAux] at h
  | prev, x :: cs, c => by
    intro h
    cases hM : numMatchLen prev (x :: cs) with
    | none =>
      rw [scanNum_cons_none hM] at h
      rcases List.mem_cons.mp h with rfl | h2
      · exact List.mem_cons_self _ _
      · exact List.mem_cons_of_mem _ (scanNum_subset (some x) cs c h2)
    | some m =>
      rw [scanNum_cons_some hM] at h
      exact List.mem_cons_of_mem _
        (List.drop_subset _ _ (scanNum_subset _ (cs.drop (m - 1)) c h))
termination_by _ l _ => l.length
decreasing_by
  · simp only [List.length_cons]; omega
  · simp only [List.length_drop, List.length_cons]; omega

/-- Characters of a `punctStep` output are word characters or whitespace, and
come from the input except for the substituted spaces. -/
theorem punctStep_mem {l : List Char} {c : Char} (h : c ∈ punctStep l) :
    (isWordChar c = true ∨ isSpc c = true) ∧ (c ∈ l ∨ c = ' ') := by
  rcases List.mem_map.mp h with ⟨x, hx, hgx⟩
  by_cases hw : (isWordChar x || isSpc x) = true
  · rw [if_pos hw] at hgx
    subst hgx
    exact ⟨(Bool.or_eq_true _ _).mp hw, Or.inl hx⟩
  · rw [if_neg hw] at hgx
    subst hgx
    exact ⟨Or.inr (by decide), Or.inr rfl⟩

/-- Characters of a `collapseAux` output are non-whitespace input characters
or the single replacement space. -/
theorem collapseAux_mem :
    ∀ (b : Bool) (l : List Char) (c : Char),
      c ∈ collapseAux b l → (c ∈ l ∧ isSpc c = false) ∨ c = ' '
  | b, [], c => by intro h; cases b <;> simp [collapseAux] at h
  | b, x :: cs, c => by
    intro h
    by_cases hx : isSpc x
    · cases b with
      | true =>
        rw [show collapseAux true (x :: cs) = collapseAux true cs by
          simp [collapseAux, hx]] at h
        rcases collapseAux_mem true cs c h with ⟨h2, h3⟩ | h2
        · exact Or.inl ⟨List.mem_cons_of_mem _ h2, h3⟩
        · exact Or.inr h2
      | false =>
        rw [show collapseAux false (x :: cs) = ' ' :: collapseAux true cs by
          simp [collapseAux, hx]] at h
        rcases List.mem_cons.mp h with rfl | h2
        · exact Or.inr rfl
        · rcases collapseAux_mem true cs c h2 with ⟨h3, h4⟩ | h3
          · exact Or.inl ⟨List.mem_cons_of_mem _ h3, h4⟩
          · exact Or.inr h3
    · rw [show collapseAux b (x :: cs) = x :: collapseAux false cs by
        cases b <;> simp [collapseAux, hx]] at h
      rcases List.mem_cons.mp h with rfl | h2
      · exact Or.inl ⟨List.mem_cons_self _ _, by simpa using hx⟩
      · rcases collapseAux_mem false cs c h2 with ⟨h3, h4⟩ | h3
        · exact Or.inl ⟨List.mem_cons_of_mem _ h3, h4⟩
        · exact Or.inr h3

/-- After a replacement space has been emitted, the next emitted character is
not whitespace. -/
theorem collapseAux_true_head :
    ∀ (l : List Char) (c : Char),
      (collapseAux true l).head? = some c → isSpc c = false
  | [], c => by intro h; simp [collapseAux] at h
  | x :: cs, c => by
    intro h
    by_cases hx : isSpc x
    · rw [show collapseAux true (x :: cs) = collapseAux true cs by
        simp [collapseAux, hx]] at h
      exact collapseAux_true_head cs c h
    · rw [show collapseAux true (x :: cs) = x :: collapseAux false cs by
        simp [collapseAux, hx]] at h
      rw [List.head?_cons] at h
      injection h with h2
      subst h2
      simpa using hx

/-- A `collapseAux` output never has two adjacent whitespace characters. -/
theorem collapseAux_chain :
    ∀ (l : List Char) (b : Bool),
      (collapseAux b l).Chain' (fun a c => ¬(isSpc a = true ∧ isSpc c = true))
  | [], b => by cases b <;> exact List.chain'_nil
  | x :: cs, b => by
    by_cases hx : isSpc x
    · cases b with
      | true =>
        rw [show collapseAux true (x :: cs) = collapseAux true cs by
          simp [collapseAux, hx]]
        exact collapseAux_chain cs true
      | false =>
        rw [show collapseAux false (x :: cs) = ' ' :: collapseAux true cs by
          simp [collapseAux, hx]]
        refine List.chain'_cons'.mpr ⟨?_, collapseAux_chain cs true⟩
        intro y hy
        have h2 := collapseAux_true_head cs y hy
        intro hcon
        rw [h2] at hcon
        exact Bool.false_ne_true hcon.2
    · rw [show collapseAux b (x :: cs) = x :: collapseAux false cs by
        cases b <;> simp [collapseAux, hx]]
      refine List.chain'_cons'.mpr ⟨?_, collapseAux_chain cs false⟩
      intro y hy hcon
      exact hx hcon.1

/-- The head of a `dropWhile` output fails the predicate. -/
theorem dropWhile_head_neg {p : Char → Bool} :
    ∀ (l : List Char) (c : Char), (l.dropWhile p).head? = some c → p c = false
  | [], c => by intro h; simp at h
  | x :: cs, c => by
    intro h
    by_cases hx : p x
    · rw [List.dropWhile_cons_of_pos hx] at h
      exact dropWhile_head_neg cs c h
    · rw [List.dropWhile_cons_of_neg hx] at h
      rw [List.head?_cons] at h
      injection h with h2
      subst h2
      simpa using hx

/-- The last element of a list is the last element of any right extension. -/
theorem getLast_of_sfx {s t : List Char} {c : Char} (h : s <:+ t)
    (hc : s.getLast? = some c) : t.getLast? = some c := by
  rcases h with ⟨u, rfl⟩
  rw [List.getLast?_append, hc]
  rfl

/-- Every character of a trimmed list is a character of the input. -/
theorem trimStep_subset {l : List Char} {c : Char} (h : c ∈ trimStep l) : c ∈ l := by
  unfold trimStep at h
  rw [List.mem_reverse] at h
  have h2 := (List.dropWhile_suffix isSpc).subset h
  rw [List.mem_reverse] at h2
  exact (List.dropWhile_suffix isSpc).subset h2

/-- Trimming preserves absence of adjacent whitespace. -/
theorem trimStep_chain {R : Char → Char → Prop} (hR : ∀ a b, R a b → R b a)
    {l : List Char} (h : l.Chain' R) : (trimStep l).Chain' R := by
  unfold trimStep
  rw [List.chain'_reverse]
  refine List.Chain'.imp (fun a b hab => hR a b hab) ?_
  refine List.Chain'.suffix ?_ (List.dropWhile_suffix isSpc)
  rw [List.chain'_reverse]
  refine List.Chain'.imp (fun a b hab => hR a b hab) ?_
  exact List.Chain'.suffix h (List.dropWhile_suffix isSpc)

/-- The first character of a trimmed list is not whitespace. -/
theorem trimStep_head {l : List Char} {c : Char}
    (h : (trimStep l).head? = some c) : isSpc c = false := by
  unfold trimStep at h
  rw [List.head?_reverse] at h
  have h2 : ((l.dropWhile isSpc).reverse).getLast? = some c :=
    getLast_of_sfx (List.dropWhile_suffix isSpc) h
  rw [List.getLast?_reverse] at h2
  exact dropWhile_head_neg _ c h2

/-- The last character of a trimmed list is not whitespace. -/
theorem trimStep_getLast {l : List Char} {c : Char}
    (h : (trimStep l).getLast? = some c) : isSpc c = false := by
  unfold trimStep at h
  rw [List.getLast?_reverse] at h
  exact dropWhile_head_neg _ c h

/-- Lowercasing produces no uppercase character. -/
theorem toLower_not_upper (c : Char) : (Char.toLower c).isUpper = false := by
  unfold Char.toLower
  by_cases h : c.toNat ≥ 65 ∧ c.toNat ≤ 90
  · rw [if_pos h]
    obtain ⟨h1, h2⟩ := h
    generalize c.toNat = n at h1 h2 ⊢
    interval_cases n <;> decide
  · rw [if_neg h]
    rw [Decidable.not_and_iff_or_not] at h
    simp only [Char.isUpper, Bool.and_eq_false_iff, decide_eq_false_iff_not]
    rcases h with h | h
    · left
      intro hc
      exact h (by exact_mod_cast hc)
    · right
      intro hc
      exact h (by exact_mod_cast hc)

/-- Data of the normalizer output, with the pipeline spelled out. -/
theorem preprocess_data (s : String) :
    (preprocess_text s).data
      = trimStep (collapseStep (punctStep (scanNum none
          (scanSub emailMatchLen (scanSub urlMatchLen (lowerStep s.data)))))) := rfl

/-- Every character of a normalizer output is a word character or a space. -/
theorem preprocess_class {s : String} {c : Char} (hc : c ∈ (preprocess_text s).data) :
    isWordChar c = true ∨ c = ' ' := by
  rw [preprocess_data] at hc
  have h1 := trimStep_subset hc
  unfold collapseStep at h1
  rcases collapseAux_mem false _ c h1 with ⟨h2, h3⟩ | rfl
  · rcases (punctStep_mem h2).1 with h4 | h4
    · exact Or.inl h4
    · rw [h4] at h3
      exact absurd h3 (by decide)
  · exact Or.inr rfl

/-- A normalizer output has no uppercase character. -/
theorem preprocess_not_upper {s : String} {c : Char} (hc : c ∈ (preprocess_text s).data) :
    c.isUpper = false := by
  rw [preprocess_data] at hc
  have h1 := trimStep_subset hc
  unfold collapseStep at h1
  rcases collapseAux_mem false _ c h1 with ⟨h2, _⟩ | rfl
  · rcases (punctStep_mem h2).2 with h4 | rfl
    · have h5 := scanNum_subset _ _ c h4
      have h6 := scanSub_subset _ _ c h5
      have h7 := scanSub_subset _ _ c h6
      rcases List.mem_map.mp h7 with ⟨x, _, rfl⟩
      exact toLower_not_upper x
    · decide
  · decide

/-- A normalizer output has no two adjacent whitespace characters. -/
theorem preprocess_chain_spc (s : String) :
    ((preprocess_text s).data).Chain' (fun a b => ¬(isSpc a = true ∧ isSpc b = true)) := by
  rw [preprocess_data]
  have hsym : ∀ a b : Char, ¬(isSpc a = true ∧ isSpc b = true) →
      ¬(isSpc b = true ∧ isSpc a = true) := fun a b hab hcon => hab ⟨hcon.2, hcon.1⟩
  have hc1 : (collapseStep (punctStep (scanNum none (scanSub emailMatchLen
      (scanSub urlMatchLen (lowerStep s.data)))))).Chain'
      (fun a c => ¬(isSpc a = true ∧ isSpc c = true)) := collapseAux_chain _ false
  exact trimStep_chain hsym hc1

/-- A normalizer output does not start with whitespace. -/
theorem preprocess_head_spc {s : String} {c : Char}
    (h : (preprocess_text s).data.head? = some c) : isSpc c = false := by
  rw [preprocess_data] at h
  exact trimStep_head h

/-- A normalizer output does not end with whitespace. -/
theorem preprocess_getLast_spc {s : String} {c : Char}
    (h : (preprocess_text s).data.getLast? = some c) : isSpc c = false := by
  rw [preprocess_data] at h
  exact trimStep_getLast h

/-- C9: the normalizer applies, in order, lowercasing, URL removal, email
removal, removal of standalone digit tokens, replacement of characters
that are neither word characters nor whitespace by spaces, whitespace
collapsing and trimming (this order is the definition of
`preprocess_text`); it is a total function, the empty input yields the
empty output, digits embedded in words such as "5g" survive (exercised by
the concrete input below), and every output consists of word characters
with single spaces between them and no leading or trailing space and no
uppercase letter.  Word characters are letters, digits and the
underscore, so underscores are preserved, not replaced by spaces
(exercised by the second concrete input). -/
theorem c9_normalizer (s : String) :
    preprocess_text "" = "" ∧
    preprocess_text "Check HTTP://A.B and Bob@Ex.com, 50 5g!!" = "check and 5g" ∧
    preprocess_text "a_b" = "a_b" ∧
    (∀ c ∈ (preprocess_text s).data, isWordChar c = true ∨ c = ' ') ∧
    (∀ c ∈ (preprocess_text s).data, c.isUpper = false) ∧
    List.Chain' (fun a b => ¬(a = ' ' ∧ b = ' ')) (preprocess_text s).data ∧
    (∀ c, (preprocess_text s).data.head? = some c → c ≠ ' ') ∧
    (∀ c, (preprocess_text s).data.getLast? = some c → c ≠ ' ') := by
  refine ⟨rfl, by decide, by decide, ?_, ?_, ?_, ?_, ?_⟩
  · exact fun c hc => preprocess_class hc
  · exact fun c hc => preprocess_not_upper hc
  · exact List.Chain'.imp
      (fun a b h hab => h ⟨by rw [hab.1]; decide, by rw [hab.2]; decide⟩)
      (preprocess_chain_spc s)
  · intro c hc hsp
    have h2 := preprocess_head_spc hc
    rw [hsp] at h2
    exact absurd h2 (by decide)
  · intro c hc hsp
    have h2 := preprocess_getLast_spc hc
    rw [hsp] at h2
    exact absurd h2 (by decide)

theorem c9_normalizer_witness :
    preprocess_text "" = "" ∧
    preprocess_text "Check HTTP://A.B and Bob@Ex.com, 50 5g!!" = "check and 5g" ∧
    preprocess_text "a_b" = "a_b" ∧
    (isWordChar 'a' = true ∨ 'a' = ' ') ∧
    Char.isUpper 'a' = false ∧
    List.Chain' (fun a b => ¬(a = ' ' ∧ b = ' ')) (preprocess_text "Ab  cd").data ∧
    'a' ≠ ' ' ∧ 'd' ≠ ' ' := by
  obtain ⟨h1, h2, h2b, h3, h4, h5, h6, h7⟩ := c9_normalizer "Ab  cd"
  exact ⟨h1, h2, h2b, h3 'a' (by decide), h4 'a' (by decide), h5,
    h6 'a' (by decide), h7 'd' (by decide)⟩

/-- C9 counterexample to the original wording: the fifth normalization step
substitutes the regex class `[^\w\s]`, and `\w` contains the underscore,
so an underscore — which is neither a letter, a digit, nor whitespace — is
NOT replaced by a space: "a_b" normalizes to itself, underscore included. -/
theorem c9_underscore_not_replaced :
    preprocess_text "a_b" = "a_b" ∧
    '_' ∈ (preprocess_text "a_b").data ∧
    '_'.isAlpha = false ∧ '_'.isDigit = false ∧ isSpc '_' = false :=
  ⟨by decide, by decide, by decide, by decide, by decide⟩

/-! ### Character facts and step-identity lemmas (towards claim C10) -/

theorem digit_word {c : Char} (h : c.isDigit = true) : isWordChar c = true := by
  unfold isWordChar Char.isAlphanum
  rw [h]
  simp

theorem spc_cases {c : Char} (h : isSpc c = true) :
    c = ' ' ∨ c = '\t' ∨ c = '\n' ∨ c = '\r' ∨ c = Char.ofNat 11 ∨ c = Char.ofNat 12 := by
  simpa [isSpc, or_assoc] using h

theorem spc_not_word {c : Char} (h : isSpc c = true) : isWordChar c = false := by
  rcases spc_cases h with rfl | rfl | rfl | rfl | rfl | rfl <;> decide

theorem spc_not_digit {c : Char} (h : isSpc c = true) : c.isDigit = false := by
  rcases spc_cases h with rfl | rfl | rfl | rfl | rfl | rfl <;> decide

theorem word_not_spc {c : Char} (h : isWordChar c = true) : isSpc c = false := by
  cases hs : isSpc c with
  | false => rfl
  | true => rw [spc_not_word hs] at h; exact absurd h (by decide)

theorem digit_not_spc {c : Char} (h : c.isDigit = true) : isSpc c = false :=
  word_not_spc (digit_word h)

theorem nonword_not_digit {c : Char} (h : isWordChar c = false) : c.isDigit = false := by
  cases hd : c.isDigit with
  | false => rfl
  | true => rw [digit_word hd] at h; exact absurd h (by decide)

theorem toLower_eq_self {c : Char} (h : c.isUpper = false) : c.toLower = c := by
  unfold Char.toLower
  rw [if_neg]
  intro hcon
  obtain ⟨h1, h2⟩ := hcon
  have h3 : c.isUpper = true := by
    simp only [Char.isUpper, Bool.and_eq_true, decide_eq_true_eq]
    exact ⟨by exact_mod_cast h1, by exact_mod_cast h2⟩
  rw [h] at h3
  exact Bool.false_ne_true h3

theorem numMatchLen_not_digit {prev : Option Char} {x : Char} {t : List Char}
    (h : x.isDigit = false) : numMatchLen prev (x :: t) = none := by
  simp [numMatchLen, h]

theorem numMatchLen_not_prev {prev : Option Char} {x : Char} {t : List Char}
    (h : notWordOpt prev = false) : numMatchLen prev (x :: t) = none := by
  simp [numMatchLen, h]

theorem numMatchLen_congr {p q : Option Char} (b : List Char)
    (h : notWordOpt p = notWordOpt q) : numMatchLen p b = numMatchLen q b := by
  cases b with
  | nil => rfl
  | cons x t => simp only [numMatchLen, h]

theorem numMatchLen_some {prev : Option Char} {l : List Char} {m : Nat}
    (h : numMatchLen prev l = some m) :
    m = digRun l ∧ notWordOpt (l.get? (digRun l)) = true ∧
      (∃ c t, l = c :: t ∧ c.isDigit = true) ∧ notWordOpt prev = true := by
  cases l with
  | nil => simp [numMatchLen] at h
  | cons x t =>
    by_cases hc :
        (x.isDigit && notWordOpt prev && notWordOpt ((x :: t).get? (digRun (x :: t)))) = true
    · rw [show numMatchLen prev (x :: t)
          = if x.isDigit && notWordOpt prev && notWordOpt ((x :: t).get? (digRun (x :: t)))
            then some (digRun (x :: t)) else none from rfl, if_pos hc] at h
      injection h with h2
      obtain ⟨⟨hd, hp⟩, ha⟩ :
          (x.isDigit = true ∧ notWordOpt prev = true) ∧
            notWordOpt ((x :: t).get? (digRun (x :: t))) = true := by
        simpa [Bool.and_eq_true] using hc
      exact ⟨h2.symm, ha, ⟨x, t, rfl, hd⟩, hp⟩
    · rw [show numMatchLen prev (x :: t)
          = if x.isDigit && notWordOpt prev && notWordOpt ((x :: t).get? (digRun (x :: t)))
            then some (digRun (x :: t)) else none from rfl, if_neg hc] at h
      exact absurd h (by simp)

theorem digRun_cons_pos {c : Char} (t : List Char) (h : c.isDigit = true) :
    digRun (c :: t) = (t.takeWhile Char.isDigit).length + 1 := by
  unfold digRun
  rw [List.takeWhile_cons_of_pos h, List.length_cons]

theorem takeWhile_all_append {p : Char → Bool} :
    ∀ (ds rest : List Char), (∀ d ∈ ds, p d = true) →
      (ds ++ rest).takeWhile p = ds ++ rest.takeWhile p
  | [], _, _ => rfl
  | d :: ds, rest, h => by
    rw [List.cons_append, List.takeWhile_cons_of_pos (h d (List.mem_cons_self _ _)),
      takeWhile_all_append ds rest (fun x hx => h x (List.mem_cons_of_mem _ hx)),
      List.cons_append]

theorem dropWhile_eq_drop {p : Char → Bool} :
    ∀ (l : List Char), l.dropWhile p = l.drop (l.takeWhile p).length
  | [] => rfl
  | c :: t => by
    by_cases h : p c
    · rw [List.dropWhile_cons_of_pos h, List.takeWhile_cons_of_pos h, List.length_cons,
        List.drop_succ_cons, dropWhile_eq_drop t]
    · rw [List.dropWhile_cons_of_neg h, List.takeWhile_cons_of_neg h]
      rfl

theorem nspRun_pos_iff {x : List Char} :
    0 < nspRun x ↔ ∃ c, x.head? = some c ∧ isSpc c = false := by
  cases x with
  | nil => simp [nspRun]
  | cons c t =>
    cases h : isSpc c with
    | true =>
      rw [show nspRun (c :: t) = 0 by
        unfold nspRun
        rw [List.takeWhile_cons_of_neg (by simp [h])]
        rfl]
      simp [h]
    | false =>
      constructor
      · intro _
        exact ⟨c, rfl, h⟩
      · intro _
        unfold nspRun
        rw [List.takeWhile_cons_of_pos (by simp [h])]
        simp

theorem drop_nspRun (x : List Char) :
    x.drop (nspRun x) = x.dropWhile (fun c => !isSpc c) :=
  (dropWhile_eq_drop x).symm

theorem url_cond1 {l : List Char} (h1 : l.take 4 = ['h', 't', 't', 'p'])
    (h2 : 0 < nspRun (l.drop 4)) : urlMatchLen l ≠ none := by
  unfold urlMatchLen
  rw [if_pos ⟨h1, h2⟩]
  simp

theorem url_cond2 {l : List Char} (h1 : l.take 3 = ['w', 'w', 'w'])
    (h2 : 0 < nspRun (l.drop 3)) : urlMatchLen l ≠ none := by
  unfold urlMatchLen
  by_cases hc : l.take 4 = ['h', 't', 't', 'p'] ∧ 0 < nspRun (l.drop 4)
  · rw [if_pos hc]; simp
  · rw [if_neg hc, if_pos ⟨h1, h2⟩]; simp

theorem url_cases {l : List Char} (h : urlMatchLen l ≠ none) :
    (l.take 4 = ['h', 't', 't', 'p'] ∧ 0 < nspRun (l.drop 4)) ∨
    (l.take 3 = ['w', 'w', 'w'] ∧ 0 < nspRun (l.drop 3)) := by
  unfold urlMatchLen at h
  by_cases h1 : l.take 4 = ['h', 't', 't', 'p'] ∧ 0 < nspRun (l.drop 4)
  · exact Or.inl h1
  · rw [if_neg h1] at h
    by_cases h2 : l.take 3 = ['w', 'w', 'w'] ∧ 0 < nspRun (l.drop 3)
    · exact Or.inr h2
    · rw [if_neg h2] at h
      exact absurd rfl h

theorem url_spc_head {c : Char} {t : List Char} (h : isSpc c = true) :
    urlMatchLen (c :: t) = none := by
  cases hu : urlMatchLen (c :: t) with
  | none => rfl
  | some n =>
    exfalso
    have h2 := url_cases (show urlMatchLen (c :: t) ≠ none by rw [hu]; simp)
    rcases h2 with ⟨h3, _⟩ | ⟨h3, _⟩
    · have h4 : c = 'h' := by
        have h5 := congrArg List.head? h3
        simpa using h5
      rw [h4] at h
      exact absurd h (by decide)
    · have h4 : c = 'w' := by
        have h5 := congrArg List.head? h3
        simpa using h5
      rw [h4] at h
      exact absurd h (by decide)

theorem scanSub_id (M : List Char → Option Nat) :
    ∀ (l : List Char), (∀ i : Nat, M (l.drop i) = none) → scanSub M l = l
  | [], _ => rfl
  | c :: cs, h => by
    rw [scanSub_cons_none (h 0), scanSub_id M cs (fun i => h (i + 1))]

theorem lastCtx_cons (c : Char) (a : List Char) (prev : Option Char) :
    ((c :: a).getLast?).or prev = (a.getLast?).or (some c) := by
  cases a with
  | nil => rfl
  | cons x t =>
    rw [List.getLast?_cons_cons]
    cases h : (x :: t).getLast? with
    | none => rw [List.getLast?_eq_none_iff] at h; exact absurd h (by simp)
    | some d => rfl

/-- Splits of `l` admit no standalone-number match, where the character
context to the left of the split defaults to `prev` at the far left.  This
is the precondition under which the number scan is the identity, and the
postcondition the number scan establishes. -/
def NoNumSplit (prev : Option Char) (l : List Char) : Prop :=
  ∀ a b : List Char, a ++ b = l → numMatchLen ((a.getLast?).or prev) b = none

theorem scanNum_id :
    ∀ (l : List Char) (prev : Option Char), NoNumSplit prev l → scanNum prev l = l
  | [], _, _ => rfl
  | c :: cs, prev, h => by
    have h0 : numMatchLen prev (c :: cs) = none := by
      have h1 := h [] (c :: cs) rfl
      simpa using h1
    rw [scanNum_cons_none h0]
    congr 1
    refine scanNum_id cs (some c) ?_
    intro a b hab
    have h2 := h (c :: a) b (by rw [List.cons_append, hab])
    rwa [lastCtx_cons] at h2

theorem emailMatchLen_none {l : List Char} (h : '@' ∉ l) : emailMatchLen l = none := by
  have hni : '@' ∉ ((l.takeWhile (fun c => !isSpc c)).drop 1).dropLast := by
    intro hmem
    exact h ((List.takeWhile_prefix _).subset
      (List.drop_subset _ _ (List.dropLast_subset _ hmem)))
  exact if_neg hni

theorem collapse_id :
    ∀ (l : List Char), (∀ c ∈ l, isWordChar c = true ∨ c = ' ') →
      l.Chain' (fun a b => ¬(isSpc a = true ∧ isSpc b = true)) → collapseStep l = l
  | [], _, _ => rfl
  | c :: cs, hcl, hch => by
    rw [collapseStep_cons]
    by_cases hc : isSpc c = true
    · rw [if_pos hc]
      have hc2 : c = ' ' := by
        rcases hcl c (List.mem_cons_self _ _) with h | h
        · rw [word_not_spc h] at hc; exact absurd hc (by decide)
        · exact h
      have hdw : cs.dropWhile isSpc = cs := by
        cases cs with
        | nil => rfl
        | cons x t =>
          have h2 := (List.chain'_cons'.mp hch).1 x rfl
          have h3 : isSpc x = false := by
            cases hx : isSpc x with
            | false => rfl
            | true => exact absurd ⟨hc, hx⟩ h2
          exact List.dropWhile_cons_of_neg (by simp [h3])
      rw [hdw, ← hc2]
      congr 1
      exact collapse_id cs (fun d hd => hcl d (List.mem_cons_of_mem _ hd))
        (List.chain'_cons'.mp hch).2
    · rw [if_neg hc]
      congr 1
      exact collapse_id cs (fun d hd => hcl d (List.mem_cons_of_mem _ hd))
        (List.chain'_cons'.mp hch).2

theorem trim_id (l : List Char)
    (hh : ∀ c, l.head? = some c → isSpc c = false)
    (hl : ∀ c, l.getLast? = some c → isSpc c = false) : trimStep l = l := by
  have h1 : l.dropWhile isSpc = l := by
    cases l with
    | nil => rfl
    | cons c cs => exact List.dropWhile_cons_of_neg (by simp [hh c rfl])
  unfold trimStep
  rw [h1]
  have h2 : l.reverse.dropWhile isSpc = l.reverse := by
    cases hr : l.reverse with
    | nil => rfl
    | cons c cs =>
      have h3 : l.getLast? = some c := by
        rw [← List.head?_reverse, hr, List.head?_cons]
      exact List.dropWhile_cons_of_neg (by simp [hl c h3])
  rw [h2, List.reverse_reverse]

/-! ### URL-free invariant and the substitution scanners (towards claim C10) -/

/-- No suffix of `l` begins with a URL match. -/
def NoUrl (l : List Char) : Prop := ∀ i : Nat, urlMatchLen (l.drop i) = none

theorem noUrl_nil : NoUrl [] := by
  intro i
  rw [List.drop_nil]
  decide

theorem noUrl_drop {l : List Char} (h : NoUrl l) (k : Nat) : NoUrl (l.drop k) := by
  intro i
  rw [List.drop_drop]
  exact h (k + i)

theorem noUrl_cons {c : Char} {cs : List Char} (h : NoUrl (c :: cs)) : NoUrl cs :=
  fun i => h (i + 1)

/-- A `scanSub` output agrees with its input on any all-nonspace prefix,
provided matches never start at whitespace and always end at whitespace or
at the end of the string. -/
theorem scanSub_nsp_take (M : List Char → Option Nat)
    (Hsp : ∀ (c : Char) (t : List Char), isSpc c = true → M (c :: t) = none)
    (Hb : ∀ (x : List Char) (n : Nat), M x = some n →
      x.drop n = [] ∨ ∃ c, (x.drop n).head? = some c ∧ isSpc c = true)
    (Hpos : ∀ (x : List Char) (n : Nat), M x = some n → 1 ≤ n) :
    ∀ (l : List Char) (j : Nat), (∀ c ∈ (scanSub M l).take j, isSpc c = false) →
      j ≤ (scanSub M l).length → (scanSub M l).take j = l.take j
  | [], j => by
    intro _ hj
    have h0 : (scanSub M []).length = 0 := rfl
    have hj0 : j = 0 := by omega
    subst hj0
    simp
  | c :: cs, j => by
    intro hns hj
    cases hM : M (c :: cs) with
    | none =>
      rw [scanSub_cons_none hM] at hns hj ⊢
      cases j with
      | zero => simp
      | succ j2 =>
        rw [List.take_succ_cons, List.take_succ_cons]
        congr 1
        refine scanSub_nsp_take M Hsp Hb Hpos cs j2 ?_ ?_
        · intro d hd
          exact hns d (by rw [List.take_succ_cons]; exact List.mem_cons_of_mem _ hd)
        · simpa using hj
    | some n =>
      obtain ⟨n2, rfl⟩ : ∃ n2, n = n2 + 1 := ⟨n - 1, by have := Hpos _ _ hM; omega⟩
      rw [scanSub_cons_some hM] at hns hj ⊢
      rw [Nat.add_sub_cancel] at hns hj ⊢
      rcases Hb (c :: cs) (n2 + 1) hM with hnil | ⟨d, hd1, hd2⟩
      · have hE : cs.drop n2 = [] := by
          rw [← List.drop_succ_cons]
          exact hnil
        rw [hE] at hns hj ⊢
        have h0 : (scanSub M ([] : List Char)).length = 0 := rfl
        have hj0 : j = 0 := by omega
        subst hj0
        simp
      · have hd3 : (c :: cs).drop (n2 + 1) = cs.drop n2 := List.drop_succ_cons
        rw [hd3] at hd1
        cases hdp : cs.drop n2 with
        | nil => rw [hdp] at hd1; simp at hd1
        | cons d0 rest =>
          rw [hdp, List.head?_cons] at hd1
          injection hd1 with hd4
          subst hd4
          rw [hdp] at hns hj
          rw [scanSub_cons_none (Hsp d0 rest hd2)] at hns hj ⊢
          cases j with
          | zero => simp
          | succ j2 =>
            exfalso
            have h5 : isSpc d0 = false :=
              hns d0 (by rw [List.take_succ_cons]; exact List.mem_cons_self _ _)
            rw [hd2] at h5
            exact absurd h5 (by decide)
termination_by l _ => l.length
decreasing_by
  simp only [List.length_cons]; omega

theorem url_Hsp : ∀ (c : Char) (t : List Char), isSpc c = true →
    urlMatchLen (c :: t) = none :=
  fun _ _ h => url_spc_head h

theorem url_Hb : ∀ (x : List Char) (n : Nat), urlMatchLen x = some n →
    x.drop n = [] ∨ ∃ c, (x.drop n).head? = some c ∧ isSpc c = true := by
  intro x n h
  unfold urlMatchLen at h
  by_cases h1 : x.take 4 = ['h', 't', 't', 'p'] ∧ 0 < nspRun (x.drop 4)
  · rw [if_pos h1] at h
    injection h with h2
    subst h2
    rw [← List.drop_drop, drop_nspRun]
    cases hdw : (x.drop 4).dropWhile (fun c => !isSpc c) with
    | nil => exact Or.inl rfl
    | cons d rest =>
      right
      refine ⟨d, by rw [List.head?_cons], ?_⟩
      have h3 := dropWhile_head_neg _ d (by rw [hdw, List.head?_cons])
      simpa using h3
  · rw [if_neg h1] at h
    by_cases h2 : x.take 3 = ['w', 'w', 'w'] ∧ 0 < nspRun (x.drop 3)
    · rw [if_pos h2] at h
      injection h with h3
      subst h3
      rw [← List.drop_drop, drop_nspRun]
      cases hdw : (x.drop 3).dropWhile (fun c => !isSpc c) with
      | nil => exact Or.inl rfl
      | cons d rest =>
        right
        refine ⟨d, by rw [List.head?_cons], ?_⟩
        have h3 := dropWhile_head_neg _ d (by rw [hdw, List.head?_cons])
        simpa using h3
    · rw [if_neg h2] at h
      exact absurd h (by simp)

theorem url_Hpos : ∀ (x : List Char) (n : Nat), urlMatchLen x = some n → 1 ≤ n := by
  intro x n h
  unfold urlMatchLen at h
  by_cases h1 : x.take 4 = ['h', 't', 't', 'p'] ∧ 0 < nspRun (x.drop 4)
  · rw [if_pos h1] at h
    injection h with h2
    omega
  · rw [if_neg h1] at h
    by_cases h2 : x.take 3 = ['w', 'w', 'w'] ∧ 0 < nspRun (x.drop 3)
    · rw [if_pos h2] at h
      injection h with h3
      omega
    · rw [if_neg h2] at h
      exact absurd h (by simp)

theorem email_some {x : List Char} {n : Nat} (h : emailMatchLen x = some n) :
    n = nspRun x ∧ '@' ∈ ((x.takeWhile (fun c => !isSpc c)).drop 1).dropLast := by
  by_cases hm : '@' ∈ ((x.takeWhile (fun c => !isSpc c)).drop 1).dropLast
  · have h2 : emailMatchLen x = some (nspRun x) := if_pos hm
    rw [h2] at h
    injection h with h3
    exact ⟨h3.symm, hm⟩
  · have h2 : emailMatchLen x = none := if_neg hm
    rw [h2] at h
    exact absurd h (by simp)

theorem email_Hsp : ∀ (c : Char) (t : List Char), isSpc c = true →
    emailMatchLen (c :: t) = none := by
  intro c t h
  have h1 : (c :: t).takeWhile (fun c => !isSpc c) = [] :=
    List.takeWhile_cons_of_neg (by simp [h])
  exact if_neg (by rw [h1]; simp)

theorem email_Hb : ∀ (x : List Char) (n : Nat), emailMatchLen x = some n →
    x.drop n = [] ∨ ∃ c, (x.drop n).head? = some c ∧ isSpc c = true := by
  intro x n h
  obtain ⟨hn, _⟩ := email_some h
  subst hn
  rw [drop_nspRun]
  cases hdw : x.dropWhile (fun c => !isSpc c) with
  | nil => exact Or.inl rfl
  | cons d rest =>
    right
    refine ⟨d, by rw [List.head?_cons], ?_⟩
    have h3 := dropWhile_head_neg _ d (by rw [hdw, List.head?_cons])
    simpa using h3

theorem email_Hpos : ∀ (x : List Char) (n : Nat), emailMatchLen x = some n → 1 ≤ n := by
  intro x n h
  obtain ⟨hn, hm⟩ := email_some h
  subst hn
  by_contra hcon
  have h0 : nspRun x = 0 := by omega
  unfold nspRun at h0
  rw [List.length_eq_zero] at h0
  rw [h0] at hm
  simp at hm

/-- A URL head-match on a list transfers along agreement of all-nonspace
prefixes. -/
theorem url_head_transfer {out l : List Char}
    (htake : ∀ j : Nat, (∀ c ∈ out.take j, isSpc c = false) →
      j ≤ out.length → out.take j = l.take j)
    (h : urlMatchLen out ≠ none) : urlMatchLen l ≠ none := by
  rcases url_cases h with ⟨h1, h2⟩ | ⟨h1, h2⟩
  · rcases nspRun_pos_iff.mp h2 with ⟨c5, hc5, hc5s⟩
    have hnn : out.drop 4 ≠ [] := by
      intro hcon
      rw [hcon] at hc5
      simp at hc5
    have hlen : 4 < out.length := by
      rw [Ne, List.drop_eq_nil_iff] at hnn
      omega
    obtain ⟨rest, hd4⟩ : ∃ rest, out.drop 4 = c5 :: rest := by
      cases hdp : out.drop 4 with
      | nil => rw [hdp] at hc5; simp at hc5
      | cons d0 r =>
        rw [hdp, List.head?_cons] at hc5
        injection hc5 with h5
        subst h5
        exact ⟨r, rfl⟩
    have htk5 : out.take 5 = l.take 5 := by
      refine htake 5 ?_ (by omega)
      intro d hd
      rw [show (5 : Nat) = 4 + 1 from rfl, List.take_add] at hd
      rcases List.mem_append.mp hd with hd1 | hd1
      · rw [h1] at hd1
        have h6 : d = 'h' ∨ d = 't' ∨ d = 't' ∨ d = 'p' := by simpa using hd1
        rcases h6 with rfl | rfl | rfl | rfl <;> decide
      · rw [hd4] at hd1
        have h6 : d = c5 := by simpa using hd1
        rw [h6]
        exact hc5s
    have e1 : (out.take 5).take 4 = out.take 4 := by rw [List.take_take]; norm_num
    have e2 : (l.take 5).take 4 = l.take 4 := by rw [List.take_take]; norm_num
    have hl4 : l.take 4 = ['h', 't', 't', 'p'] := by
      rw [← e2, ← htk5, e1]
      exact h1
    have ho4 : out.get? 4 = some c5 := by
      rw [List.get?_eq_getElem?, ← List.head?_drop, hd4, List.head?_cons]
    have hl4g : l.get? 4 = some c5 := by
      rw [← List.get?_take (show (4 : Nat) < 5 by omega), ← htk5,
        List.get?_take (show (4 : Nat) < 5 by omega)]
      exact ho4
    refine url_cond1 hl4 ?_
    refine nspRun_pos_iff.mpr ⟨c5, ?_, hc5s⟩
    rw [List.head?_drop, ← List.get?_eq_getElem?]
    exact hl4g
  · rcases nspRun_pos_iff.mp h2 with ⟨c4, hc4, hc4s⟩
    have hnn : out.drop 3 ≠ [] := by
      intro hcon
      rw [hcon] at hc4
      simp at hc4
    have hlen : 3 < out.length := by
      rw [Ne, List.drop_eq_nil_iff] at hnn
      omega
    obtain ⟨rest, hd3⟩ : ∃ rest, out.drop 3 = c4 :: rest := by
      cases hdp : out.drop 3 with
      | nil => rw [hdp] at hc4; simp at hc4
      | cons d0 r =>
        rw [hdp, List.head?_cons] at hc4
        injection hc4 with h5
        subst h5
        exact ⟨r, rfl⟩
    have htk4 : out.take 4 = l.take 4 := by
      refine htake 4 ?_ (by omega)
      intro d hd
      rw [show (4 : Nat) = 3 + 1 from rfl, List.take_add] at hd
      rcases List.mem_append.mp hd with hd1 | hd1
      · rw [h1] at hd1
        have h6 : d = 'w' ∨ d = 'w' ∨ d = 'w' := by simpa using hd1
        rcases h6 with rfl | rfl | rfl <;> decide
      · rw [hd3] at hd1
        have h6 : d = c4 := by simpa using hd1
        rw [h6]
        exact hc4s
    have e1 : (out.take 4).take 3 = out.take 3 := by rw [List.take_take]; norm_num
    have e2 : (l.take 4).take 3 = l.take 3 := by rw [List.take_take]; norm_num
    have hl3 : l.take 3 = ['w', 'w', 'w'] := by
      rw [← e2, ← htk4, e1]
      exact h1
    have ho3 : out.get? 3 = some c4 := by
      rw [List.get?_eq_getElem?, ← List.head?_drop, hd3, List.head?_cons]
    have hl3g : l.get? 3 = some c4 := by
      rw [← List.get?_take (show (3 : Nat) < 4 by omega), ← htk4,
        List.get?_take (show (3 : Nat) < 4 by omega)]
      exact ho3
    refine url_cond2 hl3 ?_
    refine nspRun_pos_iff.mpr ⟨c4, ?_, hc4s⟩
    rw [List.head?_drop, ← List.get?_eq_getElem?]
    exact hl3g

/-- The URL scan establishes the URL-free invariant. -/
theorem noUrl_scanSub_url : ∀ (l : List Char), NoUrl (scanSub urlMatchLen l)
  | [] => noUrl_nil
  | c :: cs => by
    intro i
    cases hM : urlMatchLen (c :: cs) with
    | some n =>
      rw [scanSub_cons_some hM]
      exact noUrl_scanSub_url (cs.drop (n - 1)) i
    | none =>
      rw [scanSub_cons_none hM]
      cases i with
      | succ i2 =>
        rw [List.drop_succ_cons]
        exact noUrl_scanSub_url cs i2
      | zero =>
        rw [List.drop_zero]
        cases hu : urlMatchLen (c :: scanSub urlMatchLen cs) with
        | none => rfl
        | some m =>
          exfalso
          have hne : urlMatchLen (scanSub urlMatchLen (c :: cs)) ≠ none := by
            rw [scanSub_cons_none hM, hu]
            simp
          exact (url_head_transfer
            (scanSub_nsp_take urlMatchLen url_Hsp url_Hb url_Hpos (c :: cs)) hne) hM
termination_by l => l.length
decreasing_by
  all_goals (simp only [List.length_drop, List.length_cons]; omega)

/-- The email scan preserves the URL-free invariant. -/
theorem noUrl_scanSub_email : ∀ (l : List Char), NoUrl l →
    NoUrl (scanSub emailMatchLen l)
  | [], _ => noUrl_nil
  | c :: cs, h => by
    intro i
    cases hM : emailMatchLen (c :: cs) with
    | some n =>
      rw [scanSub_cons_some hM]
      exact noUrl_scanSub_email (cs.drop (n - 1)) (noUrl_drop (noUrl_cons h) (n - 1)) i
    | none =>
      rw [scanSub_cons_none hM]
      cases i with
      | succ i2 =>
        rw [List.drop_succ_cons]
        exact noUrl_scanSub_email cs (noUrl_cons h) i2
      | zero =>
        rw [List.drop_zero]
        cases hu : urlMatchLen (c :: scanSub emailMatchLen cs) with
        | none => rfl
        | some m =>
          exfalso
          have hne : urlMatchLen (scanSub emailMatchLen (c :: cs)) ≠ none := by
            rw [scanSub_cons_none hM, hu]
            simp
          exact (url_head_transfer
            (scanSub_nsp_take emailMatchLen email_Hsp email_Hb email_Hpos (c :: cs))
            hne) (h 0)
termination_by l _ => l.length
decreasing_by
  all_goals (simp only [List.length_drop, List.length_cons]; omega)

/-! ### The URL-free invariant survives the rest of the pipeline -/

theorem scanNum_nil (prev : Option Char) : scanNum prev [] = [] := rfl

/-- If a number-scan output starts with a run of word characters, the input
starts with the same run, and the rest of the output is the scan of the rest
of the input. -/
theorem scanNum_pre :
    ∀ (pre : List Char) (l : List Char) (prev : Option Char) (tail : List Char),
      (∀ c ∈ pre, isWordChar c = true) → scanNum prev l = pre ++ tail →
      ∃ r q, l = pre ++ r ∧ scanNum q r = tail
  | [], l, prev, tail, _, h => ⟨l, prev, rfl, h⟩
  | p0 :: pre2, l, prev, tail, hw, h => by
    cases l with
    | nil =>
      rw [scanNum_nil] at h
      exact absurd h.symm (by simp)
    | cons c cs =>
      cases hM : numMatchLen prev (c :: cs) with
      | none =>
        rw [scanNum_cons_none hM, List.cons_append] at h
        injection h with h1 h2
        subst h1
        obtain ⟨r, q, hcs, ht⟩ := scanNum_pre pre2 cs (some c) tail
          (fun d hd => hw d (List.mem_cons_of_mem _ hd)) h2
        exact ⟨r, q, by rw [List.cons_append, hcs], ht⟩
      | some m =>
        exfalso
        rw [scanNum_cons_some hM] at h
        obtain ⟨hm, hb, hex, _⟩ := numMatchLen_some hM
        subst hm
        obtain ⟨c2, t2, he, hd0⟩ := hex
        have hd1 : c.isDigit = true := by
          injection he with e1 _
          rw [e1]
          exact hd0
        have hm1 : 1 ≤ digRun (c :: cs) := by
          unfold digRun
          rw [List.takeWhile_cons_of_pos hd1]
          simp
        have hrem : (cs.drop (digRun (c :: cs) - 1)).head?
            = (c :: cs).get? (digRun (c :: cs)) := by
          rw [List.head?_drop, ← List.get?_eq_getElem?]
          obtain ⟨k, hk⟩ : ∃ k, digRun (c :: cs) = k + 1 := ⟨digRun (c :: cs) - 1, by omega⟩
          rw [hk]
          rfl
        cases hg : (c :: cs).get? (digRun (c :: cs)) with
        | none =>
          have hnil2 : cs.drop (digRun (c :: cs) - 1) = [] := by
            rw [← List.head?_eq_none_iff, hrem, hg]
          rw [hnil2, scanNum_nil] at h
          exact absurd h.symm (by simp)
        | some w =>
          have hw2 : isWordChar w = false := by
            rw [hg] at hb
            simpa [notWordOpt] using hb
          obtain ⟨rest, hr⟩ : ∃ rest, cs.drop (digRun (c :: cs) - 1) = w :: rest := by
            cases hdp : cs.drop (digRun (c :: cs) - 1) with
            | nil => rw [hdp, hg] at hrem; simp at hrem
            | cons x y =>
              rw [hdp, List.head?_cons, hg] at hrem
              injection hrem with h9
              exact ⟨y, by rw [h9]⟩
          rw [hr, scanNum_cons_none (numMatchLen_not_digit (nonword_not_digit hw2)),
            List.cons_append] at h
          injection h with h1 _
          rw [h1, hw p0 (List.mem_cons_self _ _)] at hw2
          exact absurd hw2 (by decide)

/-- The head of a nonempty number-scan output is the input head or sits
behind a deleted digit run whose first character is a digit. -/
theorem scanNum_head {q : Option Char} {r tail : List Char} {c5 : Char}
    (h : scanNum q r = tail) (hh : tail.head? = some c5) :
    ∃ d rest, r = d :: rest ∧ (d = c5 ∨ d.isDigit = true) := by
  cases r with
  | nil =>
    rw [scanNum_nil] at h
    rw [← h] at hh
    simp at hh
  | cons x xs =>
    cases hM : numMatchLen q (x :: xs) with
    | none =>
      rw [scanNum_cons_none hM] at h
      rw [← h, List.head?_cons] at hh
      injection hh with h2
      exact ⟨x, xs, rfl, Or.inl h2⟩
    | some m =>
      obtain ⟨_, _, hex, _⟩ := numMatchLen_some hM
      obtain ⟨c2, t2, he, hd0⟩ := hex
      injection he with e1 _
      refine ⟨x, xs, rfl, Or.inr ?_⟩
      rw [e1]
      exact hd0

/-- The number scan preserves the URL-free invariant. -/
theorem noUrl_scanNum : ∀ (l : List Char) (prev : Option Char),
    NoUrl l → NoUrl (scanNum prev l)
  | [], _, _ => by
    intro i
    rw [scanNum_nil, List.drop_nil]
    decide
  | c :: cs, prev, h => by
    intro i
    cases hM : numMatchLen prev (c :: cs) with
    | some m =>
      rw [scanNum_cons_some hM]
      exact noUrl_scanNum (cs.drop (m - 1)) _ (noUrl_drop (noUrl_cons h) (m - 1)) i
    | none =>
      rw [scanNum_cons_none hM]
      cases i with
      | succ i2 =>
        rw [List.drop_succ_cons]
        exact noUrl_scanNum cs (some c) (noUrl_cons h) i2
      | zero =>
        rw [List.drop_zero]
        cases hu : urlMatchLen (c :: scanNum (some c) cs) with
        | none => rfl
        | some m2 =>
          exfalso
          have hne : urlMatchLen (c :: scanNum (some c) cs) ≠ none := by
            rw [hu]
            simp
          have hcontr := h 0
          rw [List.drop_zero] at hcontr
          rcases url_cases hne with ⟨h1, h2⟩ | ⟨h1, h2⟩
          · obtain ⟨hc, ht3⟩ : c = 'h' ∧ (scanNum (some c) cs).take 3 = ['t', 't', 'p'] := by
              rw [List.take_succ_cons] at h1
              simpa using h1
            rcases nspRun_pos_iff.mp h2 with ⟨c5, hc5, hc5s⟩
            rw [show ((c :: scanNum (some c) cs).drop 4) = (scanNum (some c) cs).drop 3
              from List.drop_succ_cons] at hc5
            have hsplit : scanNum (some c) cs = ['t', 't', 'p'] ++ (scanNum (some c) cs).drop 3 := by
              conv_lhs => rw [← List.take_append_drop 3 (scanNum (some c) cs)]
              rw [ht3]
            obtain ⟨r, q, hcs, htail⟩ := scanNum_pre ['t', 't', 'p'] cs (some c)
              ((scanNum (some c) cs).drop 3)
              (by
                intro d hd
                have h6 : d = 't' ∨ d = 't' ∨ d = 'p' := by simpa using hd
                rcases h6 with rfl | rfl | rfl <;> decide)
              hsplit
            obtain ⟨d, rest, hr, hd0⟩ := scanNum_head htail hc5
            have hnsp : isSpc d = false := by
              rcases hd0 with rfl | hdig
              · exact hc5s
              · exact digit_not_spc hdig
            have hl4 : (c :: cs).take 4 = ['h', 't', 't', 'p'] := by
              rw [hcs, hr, hc]
              rfl
            have hg4 : (c :: cs).get? 4 = some d := by
              rw [hcs, hr]
              rfl
            refine absurd hcontr ?_
            refine url_cond1 hl4 ?_
            refine nspRun_pos_iff.mpr ⟨d, ?_, hnsp⟩
            rw [List.head?_drop, ← List.get?_eq_getElem?]
            exact hg4
          · obtain ⟨hc, ht2⟩ : c = 'w' ∧ (scanNum (some c) cs).take 2 = ['w', 'w'] := by
              rw [List.take_succ_cons] at h1
              simpa using h1
            rcases nspRun_pos_iff.mp h2 with ⟨c4, hc4, hc4s⟩
            rw [show ((c :: scanNum (some c) cs).drop 3) = (scanNum (some c) cs).drop 2
              from List.drop_succ_cons] at hc4
            have hsplit : scanNum (some c) cs = ['w', 'w'] ++ (scanNum (some c) cs).drop 2 := by
              conv_lhs => rw [← List.take_append_drop 2 (scanNum (some c) cs)]
              rw [ht2]
            obtain ⟨r, q, hcs, htail⟩ := scanNum_pre ['w', 'w'] cs (some c)
              ((scanNum (some c) cs).drop 2)
              (by
                intro d hd
                have h6 : d = 'w' ∨ d = 'w' := by simpa using hd
                rcases h6 with rfl | rfl <;> decide)
              hsplit
            obtain ⟨d, rest, hr, hd0⟩ := scanNum_head htail hc4
            have hnsp : isSpc d = false := by
              rcases hd0 with rfl | hdig
              · exact hc4s
              · exact digit_not_spc hdig
            have hl3 : (c :: cs).take 3 = ['w', 'w', 'w'] := by
              rw [hcs, hr, hc]
              rfl
            have hg3 : (c :: cs).get? 3 = some d := by
              rw [hcs, hr]
              rfl
            refine absurd hcontr ?_
            refine url_cond2 hl3 ?_
            refine nspRun_pos_iff.mpr ⟨d, ?_, hnsp⟩
            rw [List.head?_drop, ← List.get?_eq_getElem?]
            exact hg3
termination_by l _ _ => l.length
decreasing_by
  all_goals (simp only [List.length_drop, List.length_cons]; omega)

theorem g_inv {y z : Char}
    (hyz : (if isWordChar y || isSpc y then y else ' ') = z) (hz : ¬ z = ' ') : y = z := by
  by_cases hw : (isWordChar y || isSpc y) = true
  · rw [if_pos hw] at hyz
    exact hyz
  · rw [if_neg hw] at hyz
    exact absurd hyz.symm hz

theorem map_g_fix :
    ∀ (xs ys : List Char), (∀ y ∈ ys, ¬ y = ' ') →
      xs.map (fun c => if isWordChar c || isSpc c then c else ' ') = ys → xs = ys
  | [], ys, _, h => by simpa using h
  | x :: xs, ys, hy, h => by
    cases ys with
    | nil => simp at h
    | cons y ys2 =>
      rw [List.map_cons] at h
      injection h with h1 h2
      rw [map_g_fix xs ys2 (fun z hz => hy z (List.mem_cons_of_mem _ hz)) h2]
      congr 1
      exact g_inv h1 (hy y (List.mem_cons_self _ _))

/-- The punctuation substitution preserves the URL-free invariant. -/
theorem noUrl_punct {l : List Char} (h : NoUrl l) : NoUrl (punctStep l) := by
  intro i
  unfold punctStep
  rw [← List.map_drop]
  cases hu : urlMatchLen ((l.drop i).map (fun c => if isWordChar c || isSpc c then c else ' ')) with
  | none => rfl
  | some m =>
    exfalso
    have hne : urlMatchLen ((l.drop i).map
        (fun c => if isWordChar c || isSpc c then c else ' ')) ≠ none := by
      rw [hu]
      simp
    refine absurd (h i) ?_
    rcases url_cases hne with ⟨h1, h2⟩ | ⟨h1, h2⟩
    · rw [← List.map_take] at h1
      have h4 : (l.drop i).take 4 = ['h', 't', 't', 'p'] := map_g_fix _ _ (by decide) h1
      rcases nspRun_pos_iff.mp h2 with ⟨c5, hc5, hc5s⟩
      rw [← List.map_drop, List.head?_map] at hc5
      cases hx4 : ((l.drop i).drop 4).head? with
      | none => rw [hx4] at hc5; simp at hc5
      | some y =>
        rw [hx4] at hc5
        simp only [Option.map_some', Option.some.injEq] at hc5
        have hy : isSpc y = false := by
          by_cases hw : (isWordChar y || isSpc y) = true
          · rw [if_pos hw] at hc5
            rw [hc5]
            exact hc5s
          · rw [if_neg hw] at hc5
            rw [← hc5] at hc5s
            exact absurd hc5s (by decide)
        exact url_cond1 h4 (nspRun_pos_iff.mpr ⟨y, hx4, hy⟩)
    · rw [← List.map_take] at h1
      have h4 : (l.drop i).take 3 = ['w', 'w', 'w'] := map_g_fix _ _ (by decide) h1
      rcases nspRun_pos_iff.mp h2 with ⟨c4, hc4, hc4s⟩
      rw [← List.map_drop, List.head?_map] at hc4
      cases hx3 : ((l.drop i).drop 3).head? with
      | none => rw [hx3] at hc4; simp at hc4
      | some y =>
        rw [hx3] at hc4
        simp only [Option.map_some', Option.some.injEq] at hc4
        have hy : isSpc y = false := by
          by_cases hw : (isWordChar y || isSpc y) = true
          · rw [if_pos hw] at hc4
            rw [hc4]
            exact hc4s
          · rw [if_neg hw] at hc4
            rw [← hc4] at hc4s
            exact absurd hc4s (by decide)
        exact url_cond2 h4 (nspRun_pos_iff.mpr ⟨y, hx3, hy⟩)

/-- A collapse output agrees with its input on any all-nonspace prefix. -/
theorem collapse_nsp_take :
    ∀ (l : List Char) (j : Nat), (∀ c ∈ (collapseStep l).take j, isSpc c = false) →
      j ≤ (collapseStep l).length → (collapseStep l).take j = l.take j
  | [], j => by
    intro _ hj
    have h0 : (collapseStep ([] : List Char)).length = 0 := rfl
    have hj0 : j = 0 := by omega
    subst hj0
    simp
  | c :: cs, j => by
    intro hns hj
    rw [collapseStep_cons] at hns hj ⊢
    by_cases hc : isSpc c = true
    · rw [if_pos hc] at hns hj ⊢
      cases j with
      | zero => simp
      | succ j2 =>
        exfalso
        have h5 : isSpc ' ' = false :=
          hns ' ' (by rw [List.take_succ_cons]; exact List.mem_cons_self _ _)
        exact absurd h5 (by decide)
    · rw [if_neg hc] at hns hj ⊢
      cases j with
      | zero => simp
      | succ j2 =>
        rw [List.take_succ_cons, List.take_succ_cons]
        congr 1
        refine collapse_nsp_take cs j2 ?_ ?_
        · intro d hd
          exact hns d (by rw [List.take_succ_cons]; exact List.mem_cons_of_mem _ hd)
        · simpa using hj
termination_by l _ => l.length
decreasing_by
  simp only [List.length_cons]; omega

/-- Whitespace collapsing preserves the URL-free invariant. -/
theorem noUrl_collapse : ∀ (l : List Char), NoUrl l → NoUrl (collapseStep l)
  | [], _ => by
    intro i
    rw [show collapseStep ([] : List Char) = [] from rfl, List.drop_nil]
    decide
  | c :: cs, h => by
    intro i
    rw [collapseStep_cons]
    by_cases hc : isSpc c = true
    · rw [if_pos hc]
      cases i with
      | succ i2 =>
        rw [List.drop_succ_cons]
        refine noUrl_collapse (cs.dropWhile isSpc) ?_ i2
        rw [dropWhile_eq_drop]
        exact noUrl_drop (noUrl_cons h) _
      | zero =>
        rw [List.drop_zero]
        exact url_spc_head (by decide)
    · rw [if_neg hc]
      cases i with
      | succ i2 =>
        rw [List.drop_succ_cons]
        exact noUrl_collapse cs (noUrl_cons h) i2
      | zero =>
        rw [List.drop_zero]
        cases hu : urlMatchLen (c :: collapseStep cs) with
        | none => rfl
        | some m =>
          exfalso
          have hne : urlMatchLen (collapseStep (c :: cs)) ≠ none := by
            rw [collapseStep_cons, if_neg hc, hu]
            simp
          have hcontr := h 0
          rw [List.drop_zero] at hcontr
          exact (url_head_transfer (collapse_nsp_take (c :: cs)) hne) hcontr
termination_by l => l.length
decreasing_by
  all_goals (simp only [dropWhile_eq_drop, List.length_drop, List.length_cons]; omega)

/-- Removing a trailing run of whitespace preserves the URL-free invariant. -/
theorem noUrl_append_spc {u sp : List Char} (hsp : ∀ x ∈ sp, isSpc x = true)
    (h : NoUrl (u ++ sp)) : NoUrl u := by
  intro i
  cases hle : u.drop i with
  | nil => decide
  | cons d rest =>
    rw [← hle]
    have hlen : i ≤ u.length := by
      by_contra hcon
      have h2 : u.drop i = [] := List.drop_eq_nil_iff.mpr (by omega)
      rw [h2] at hle
      exact absurd hle (by simp)
    cases hu : urlMatchLen (u.drop i) with
    | none => rfl
    | some m =>
      exfalso
      have hne : urlMatchLen (u.drop i) ≠ none := by
        rw [hu]
        simp
      have happ : (u ++ sp).drop i = u.drop i ++ sp := List.drop_append_of_le_length hlen
      refine absurd (h i) ?_
      rw [happ]
      rcases url_cases hne with ⟨h1, h2⟩ | ⟨h1, h2⟩
      · rcases nspRun_pos_iff.mp h2 with ⟨c5, hc5, hc5s⟩
        have hx5 : (u.drop i).drop 4 ≠ [] := by
          intro hcon
          rw [hcon] at hc5
          simp at hc5
        have hxlen : 4 < (u.drop i).length := by
          rw [Ne, List.drop_eq_nil_iff] at hx5
          omega
        refine url_cond1 ?_ ?_
        · rw [List.take_append_of_le_length (by omega)]
          exact h1
        · rw [List.drop_append_of_le_length (by omega)]
          refine nspRun_pos_iff.mpr ⟨c5, ?_, hc5s⟩
          cases hdp : (u.drop i).drop 4 with
          | nil => exact absurd hdp hx5
          | cons z zs =>
            rw [hdp] at hc5
            rw [List.cons_append, List.head?_cons]
            rw [List.head?_cons] at hc5
            exact hc5
      · rcases nspRun_pos_iff.mp h2 with ⟨c4, hc4, hc4s⟩
        have hx4 : (u.drop i).drop 3 ≠ [] := by
          intro hcon
          rw [hcon] at hc4
          simp at hc4
        have hxlen : 3 < (u.drop i).length := by
          rw [Ne, List.drop_eq_nil_iff] at hx4
          omega
        refine url_cond2 ?_ ?_
        · rw [List.take_append_of_le_length (by omega)]
          exact h1
        · rw [List.drop_append_of_le_length (by omega)]
          refine nspRun_pos_iff.mpr ⟨c4, ?_, hc4s⟩
          cases hdp : (u.drop i).drop 3 with
          | nil => exact absurd hdp hx4
          | cons z zs =>
            rw [hdp] at hc4
            rw [List.cons_append, List.head?_cons]
            rw [List.head?_cons] at hc4
            exact hc4

/-- The trimmed list is the de-spaced list minus a trailing whitespace run. -/
theorem trim_decomp (l : List Char) :
    l.dropWhile isSpc
      = trimStep l ++ ((l.dropWhile isSpc).reverse.takeWhile isSpc).reverse := by
  calc l.dropWhile isSpc = ((l.dropWhile isSpc).reverse).reverse :=
        (List.reverse_reverse _).symm
    _ = ((l.dropWhile isSpc).reverse.takeWhile isSpc
          ++ (l.dropWhile isSpc).reverse.dropWhile isSpc).reverse := by
        rw [List.takeWhile_append_dropWhile]
    _ = trimStep l ++ ((l.dropWhile isSpc).reverse.takeWhile isSpc).reverse :=
        List.reverse_append _ _

/-- Trimming preserves the URL-free invariant. -/
theorem noUrl_trim {l : List Char} (h : NoUrl l) : NoUrl (trimStep l) := by
  have h1 : NoUrl (l.dropWhile isSpc) := by
    rw [dropWhile_eq_drop]
    exact noUrl_drop h _
  refine noUrl_append_spc ?_ (by rw [← trim_decomp]; exact h1)
  intro x hx
  rw [List.mem_reverse] at hx
  exact List.mem_takeWhile_imp hx

/-! ### The no-standalone-number invariant (towards claim C10) -/

theorem numMatchLen_eq_some_of {prev : Option Char} {x : Char} {t : List Char}
    (h1 : x.isDigit = true) (h2 : notWordOpt prev = true)
    (h3 : notWordOpt ((x :: t).get? (digRun (x :: t))) = true) :
    numMatchLen prev (x :: t) = some (digRun (x :: t)) := by
  rw [List.get?_eq_getElem?] at h3
  simp [numMatchLen, h1, h2, h3]

theorem numMatchLen_after_word {prev : Option Char} {x : Char} {t : List Char}
    (h : notWordOpt ((x :: t).get? (digRun (x :: t))) = false) :
    numMatchLen prev (x :: t) = none := by
  rw [List.get?_eq_getElem?] at h
  simp [numMatchLen, h]

theorem noNumSplit_shift {p : Option Char} {c : Char} {l : List Char}
    (h : NoNumSplit p (c :: l)) : NoNumSplit (some c) l := by
  intro a b hab
  have h2 := h (c :: a) b (by rw [List.cons_append, hab])
  rwa [lastCtx_cons] at h2

theorem noNumSplit_congr {p q : Option Char} (hpq : notWordOpt p = notWordOpt q)
    {l : List Char} (h : NoNumSplit p l) : NoNumSplit q l := by
  intro a b hab
  have h2 := h a b hab
  have hctx : notWordOpt ((a.getLast?).or p) = notWordOpt ((a.getLast?).or q) := by
    cases a.getLast? with
    | none => simpa using hpq
    | some x => rfl
  rwa [numMatchLen_congr b hctx] at h2

/-- A run of digits scanned with a word-character context is kept verbatim. -/
theorem scanNum_keep_digits :
    ∀ (ds : List Char) (p : Char) (rest : List Char),
      (∀ d ∈ ds, d.isDigit = true) → isWordChar p = true →
      scanNum (some p) (ds ++ rest) = ds ++ scanNum ((ds.getLast?).or (some p)) rest
  | [], _, _, _, _ => rfl
  | d :: ds2, p, rest, hds, hp => by
    have hM : numMatchLen (some p) (d :: (ds2 ++ rest)) = none :=
      numMatchLen_not_prev (by simp [notWordOpt, hp])
    rw [List.cons_append, scanNum_cons_none hM,
      scanNum_keep_digits ds2 d rest (fun x hx => hds x (List.mem_cons_of_mem _ hx))
        (digit_word (hds d (List.mem_cons_self _ _))),
      lastCtx_cons, List.cons_append]

theorem digRun_block (ds : List Char) (y : Char) (Z : List Char)
    (hds : ∀ d ∈ ds, d.isDigit = true) (hy : y.isDigit = false) :
    digRun (ds ++ (y :: Z)) = ds.length := by
  unfold digRun
  rw [takeWhile_all_append _ _ hds, List.takeWhile_cons_of_neg (by simp [hy]),
    List.append_nil]

theorem get_block (ds : List Char) (y : Char) (Z : List Char) :
    (ds ++ (y :: Z)).get? ds.length = some y := by
  rw [List.get?_append_right (le_refl _)]
  simp

/-- A list of the shape digit, digits, non-digit word character never starts
a standalone-number match. -/
theorem numMatchLen_block {prev : Option Char} {c w : Char} (ds X : List Char)
    (hd : c.isDigit = true) (hds : ∀ d ∈ ds, d.isDigit = true)
    (hw : isWordChar w = true) (hwnd : w.isDigit = false) :
    numMatchLen prev (c :: (ds ++ (w :: X))) = none := by
  apply numMatchLen_after_word
  have hdr : digRun (c :: (ds ++ (w :: X))) = ds.length + 1 := by
    rw [digRun_cons_pos _ hd]
    congr 1
    rw [takeWhile_all_append _ _ hds, List.takeWhile_cons_of_neg (by simp [hwnd]),
      List.append_nil]
  have hget : (c :: (ds ++ (w :: X))).get? (ds.length + 1) = some w := by
    show (ds ++ (w :: X)).get? ds.length = some w
    exact get_block ds w X
  rw [hdr, hget]
  simp [notWordOpt, hw]

/-- The number scan establishes the no-standalone-number invariant. -/
theorem scanNum_post : ∀ (l : List Char) (prev : Option Char),
    NoNumSplit prev (scanNum prev l)
  | [], prev => by
    rw [scanNum_nil]
    intro a b hab
    obtain ⟨ha, hb⟩ := List.append_eq_nil.mp hab
    subst hb
    rfl
  | c :: cs, prev => by
    cases hM : numMatchLen prev (c :: cs) with
    | none =>
      rw [scanNum_cons_none hM]
      intro a b hab
      cases a with
      | cons a0 a2 =>
        rw [List.cons_append] at hab
        injection hab with h1 h2
        subst h1
        rw [lastCtx_cons]
        exact scanNum_post cs (some a0) a2 b h2
      | nil =>
        rw [List.nil_append] at hab
        subst hab
        by_cases hd : c.isDigit = true
        · by_cases hpv : notWordOpt prev = true
          · have hC : notWordOpt ((c :: cs).get? (digRun (c :: cs))) = false := by
              by_contra hcon
              have h9 := numMatchLen_eq_some_of hd hpv (by simpa using hcon)
              rw [h9] at hM
              exact absurd hM (by simp)
            cases hg : (c :: cs).get? (digRun (c :: cs)) with
            | none =>
              rw [hg] at hC
              exact absurd hC (by decide)
            | some w =>
              rw [hg] at hC
              have hw : isWordChar w = true := by simpa [notWordOpt] using hC
              have hds : ∀ d ∈ cs.takeWhile Char.isDigit, d.isDigit = true :=
                fun d hd2 => List.mem_takeWhile_imp hd2
              have hr1 : digRun (c :: cs) = (cs.takeWhile Char.isDigit).length + 1 :=
                digRun_cons_pos cs hd
              have hg2 : (cs.dropWhile Char.isDigit).head? = some w := by
                rw [hr1] at hg
                rw [dropWhile_eq_drop, List.head?_drop, ← List.get?_eq_getElem?]
                exact hg
              obtain ⟨rest2, hsplit2⟩ : ∃ r2, cs.dropWhile Char.isDigit = w :: r2 := by
                cases hdp : cs.dropWhile Char.isDigit with
                | nil => rw [hdp] at hg2; simp at hg2
                | cons x y =>
                  rw [hdp, List.head?_cons] at hg2
                  injection hg2 with h9
                  exact ⟨y, by rw [h9]⟩
              have hwnd : w.isDigit = false :=
                dropWhile_head_neg cs w (by rw [hsplit2, List.head?_cons])
              have hcs2 : cs = cs.takeWhile Char.isDigit ++ (w :: rest2) := by
                rw [← hsplit2, List.takeWhile_append_dropWhile]
              have hscan : scanNum (some c) cs
                  = cs.takeWhile Char.isDigit ++ (w :: scanNum (some w) rest2) := by
                conv_lhs => rw [hcs2]
                rw [scanNum_keep_digits _ c _ hds (digit_word hd)]
                congr 1
                exact scanNum_cons_none (numMatchLen_not_digit hwnd)
              rw [hscan]
              exact numMatchLen_block _ _ hd hds hw hwnd
          · exact numMatchLen_not_prev (by simpa using hpv)
        · exact numMatchLen_not_digit (by simpa using hd)
    | some m =>
      rw [scanNum_cons_some hM]
      intro a b hab
      cases a with
      | cons a0 a2 =>
        have h3 := scanNum_post (cs.drop (m - 1)) ((c :: cs).get? (m - 1)) (a0 :: a2) b hab
        obtain ⟨x, hx⟩ : ∃ x, (a0 :: a2).getLast? = some x := by
          cases hg : (a0 :: a2).getLast? with
          | none => rw [List.getLast?_eq_none_iff] at hg; exact absurd hg (by simp)
          | some x => exact ⟨x, rfl⟩
        rw [hx] at h3 ⊢
        exact h3
      | nil =>
        rw [List.nil_append] at hab
        subst hab
        obtain ⟨hm, hb, hex, _⟩ := numMatchLen_some hM
        subst hm
        obtain ⟨c2, t2, he, hd0⟩ := hex
        have hd1 : c.isDigit = true := by
          injection he with e1 _
          rw [e1]
          exact hd0
        have hm1 : 1 ≤ digRun (c :: cs) := by
          unfold digRun
          rw [List.takeWhile_cons_of_pos hd1]
          simp
        have hrem : (cs.drop (digRun (c :: cs) - 1)).head?
            = (c :: cs).get? (digRun (c :: cs)) := by
          rw [List.head?_drop, ← List.get?_eq_getElem?]
          obtain ⟨k, hk⟩ : ∃ k, digRun (c :: cs) = k + 1 := ⟨digRun (c :: cs) - 1, by omega⟩
          rw [hk]
          rfl
        cases hg : (c :: cs).get? (digRun (c :: cs)) with
        | none =>
          have hnil2 : cs.drop (digRun (c :: cs) - 1) = [] := by
            rw [← List.head?_eq_none_iff, hrem, hg]
          rw [hnil2, scanNum_nil]
          rfl
        | some w =>
          have hw2 : isWordChar w = false := by
            rw [hg] at hb
            simpa [notWordOpt] using hb
          obtain ⟨rest, hr⟩ : ∃ rest, cs.drop (digRun (c :: cs) - 1) = w :: rest := by
            cases hdp : cs.drop (digRun (c :: cs) - 1) with
            | nil => rw [hdp, hg] at hrem; simp at hrem
            | cons x y =>
              rw [hdp, List.head?_cons, hg] at hrem
              injection hrem with h9
              exact ⟨y, by rw [h9]⟩
          rw [hr, scanNum_cons_none (numMatchLen_not_digit (nonword_not_digit hw2))]
          exact numMatchLen_not_digit (nonword_not_digit hw2)
termination_by l _ => l.length
decreasing_by
  all_goals (simp only [List.length_drop, List.length_cons]; omega)

/-! ### The no-standalone-number invariant survives the rest of the pipeline -/

theorem g_digit (c : Char) :
    (if isWordChar c || isSpc c then c else ' ').isDigit = c.isDigit := by
  by_cases hw : (isWordChar c || isSpc c) = true
  · rw [if_pos hw]
  · rw [if_neg hw]
    have h2 : isWordChar c = false := by
      cases h3 : isWordChar c with
      | false => rfl
      | true => rw [h3] at hw; simp at hw
    rw [nonword_not_digit h2]
    decide

theorem g_word (c : Char) :
    isWordChar (if isWordChar c || isSpc c then c else ' ') = isWordChar c := by
  by_cases hw : (isWordChar c || isSpc c) = true
  · rw [if_pos hw]
  · rw [if_neg hw]
    have h2 : isWordChar c = false := by
      cases h3 : isWordChar c with
      | false => rfl
      | true => rw [h3] at hw; simp at hw
    rw [h2]
    decide

theorem notWordOpt_map_g (o : Option Char) :
    notWordOpt (o.map (fun c => if isWordChar c || isSpc c then c else ' '))
      = notWordOpt o := by
  cases o with
  | none => rfl
  | some u =>
    show (!isWordChar (if isWordChar u || isSpc u then u else ' ')) = !isWordChar u
    rw [g_word u]

theorem digRun_map_g :
    ∀ (l : List Char),
      digRun (l.map (fun c => if isWordChar c || isSpc c then c else ' ')) = digRun l
  | [] => rfl
  | c :: t => by
    rw [List.map_cons]
    by_cases hd : c.isDigit = true
    · have ht := digRun_map_g t
      unfold digRun at ht ⊢
      rw [List.takeWhile_cons_of_pos (by rw [g_digit]; exact hd),
        List.takeWhile_cons_of_pos hd, List.length_cons, List.length_cons, ht]
    · have hd2 : c.isDigit = false := by simpa using hd
      unfold digRun
      rw [List.takeWhile_cons_of_neg (by rw [g_digit]; simp [hd2]),
        List.takeWhile_cons_of_neg (by simp [hd2])]

/-- The punctuation substitution preserves the no-standalone-number
invariant. -/
theorem noNumSplit_punct {l : List Char} (h : NoNumSplit none l) :
    NoNumSplit none (punctStep l) := by
  intro a b hab
  obtain ⟨a0, b0, hl0, ha0, hb0⟩ := List.map_eq_append_iff.mp hab.symm
  subst ha0
  subst hb0
  have hraw := h a0 b0 hl0.symm
  rw [Option.or_none] at hraw ⊢
  rw [List.getLast?_map]
  cases b0 with
  | nil => rfl
  | cons x t =>
    rw [List.map_cons]
    by_cases hd : x.isDigit = true
    · by_cases hpv : notWordOpt (a0.getLast?) = true
      · have hC : notWordOpt ((x :: t).get? (digRun (x :: t))) = false := by
          by_contra hcon
          have h9 := numMatchLen_eq_some_of hd hpv (by simpa using hcon)
          rw [h9] at hraw
          exact absurd hraw (by simp)
        apply numMatchLen_after_word
        show notWordOpt ((List.map (fun c => if isWordChar c || isSpc c then c else ' ')
          (x :: t)).get? (digRun (List.map
            (fun c => if isWordChar c || isSpc c then c else ' ') (x :: t)))) = false
        rw [digRun_map_g, List.get?_map, notWordOpt_map_g]
        exact hC
      · refine numMatchLen_not_prev ?_
        rw [notWordOpt_map_g]
        simpa using hpv
    · refine numMatchLen_not_digit ?_
      rw [g_digit]
      simpa using hd

/-- Dropping leading whitespace preserves the no-standalone-number invariant,
for any non-word context. -/
theorem noNumSplit_dropWhile_spc :
    ∀ (l : List Char) (u v : Option Char), notWordOpt u = true → notWordOpt v = true →
      NoNumSplit u l → NoNumSplit v (l.dropWhile isSpc)
  | [], u, v, hu, hv, h => by
    rw [List.dropWhile_nil]
    exact noNumSplit_congr (hu.trans hv.symm) h
  | x :: t, u, v, hu, hv, h => by
    by_cases hx : isSpc x = true
    · rw [List.dropWhile_cons_of_pos (by simp [hx])]
      refine noNumSplit_dropWhile_spc t (some x) v ?_ hv (noNumSplit_shift h)
      simp [notWordOpt, spc_not_word hx]
    · rw [List.dropWhile_cons_of_neg (by simp [hx])]
      exact noNumSplit_congr (hu.trans hv.symm) h

/-- Collapsing keeps a non-whitespace prefix verbatim. -/
theorem collapse_keep_nonspace :
    ∀ (pre rest : List Char), (∀ x ∈ pre, isSpc x = false) →
      collapseStep (pre ++ rest) = pre ++ collapseStep rest
  | [], _, _ => rfl
  | x :: pre2, rest, hp => by
    rw [List.cons_append, collapseStep_cons,
      if_neg (by simp [hp x (List.mem_cons_self _ _)]),
      collapse_keep_nonspace pre2 rest (fun z hz => hp z (List.mem_cons_of_mem _ hz)),
      List.cons_append]

/-- Whitespace collapsing preserves the no-standalone-number invariant. -/
theorem noNumSplit_collapse :
    ∀ (l : List Char) (p : Option Char), NoNumSplit p l → NoNumSplit p (collapseStep l)
  | [], p, h => h
  | c :: cs, p, h => by
    rw [collapseStep_cons]
    by_cases hc : isSpc c = true
    · rw [if_pos hc]
      intro a b hab
      cases a with
      | nil =>
        rw [List.nil_append] at hab
        subst hab
        exact numMatchLen_not_digit (by decide)
      | cons a0 a2 =>
        rw [List.cons_append] at hab
        injection hab with h1 h2
        subst h1
        rw [lastCtx_cons]
        refine noNumSplit_collapse (cs.dropWhile isSpc) (some ' ') ?_ a2 b h2
        refine noNumSplit_dropWhile_spc cs (some c) (some ' ') ?_ (by decide)
          (noNumSplit_shift h)
        simp [notWordOpt, spc_not_word hc]
    · rw [if_neg hc]
      intro a b hab
      cases a with
      | cons a0 a2 =>
        rw [List.cons_append] at hab
        injection hab with h1 h2
        subst h1
        rw [lastCtx_cons]
        exact noNumSplit_collapse cs (some a0) (noNumSplit_shift h) a2 b h2
      | nil =>
        rw [List.nil_append] at hab
        subst hab
        by_cases hd : c.isDigit = true
        · by_cases hpv : notWordOpt ((([] : List Char).getLast?).or p) = true
          · have hraw := h [] (c :: cs) rfl
            have hC : notWordOpt ((c :: cs).get? (digRun (c :: cs))) = false := by
              by_contra hcon
              have h9 := numMatchLen_eq_some_of hd hpv (by simpa using hcon)
              rw [h9] at hraw
              exact absurd hraw (by simp)
            cases hg : (c :: cs).get? (digRun (c :: cs)) with
            | none =>
              rw [hg] at hC
              exact absurd hC (by decide)
            | some w =>
              rw [hg] at hC
              have hw : isWordChar w = true := by simpa [notWordOpt] using hC
              have hds : ∀ d ∈ cs.takeWhile Char.isDigit, d.isDigit = true :=
                fun d hd2 => List.mem_takeWhile_imp hd2
              have hr1 : digRun (c :: cs) = (cs.takeWhile Char.isDigit).length + 1 :=
                digRun_cons_pos cs hd
              have hg2 : (cs.dropWhile Char.isDigit).head? = some w := by
                rw [hr1] at hg
                rw [dropWhile_eq_drop, List.head?_drop, ← List.get?_eq_getElem?]
                exact hg
              obtain ⟨rest2, hsplit2⟩ : ∃ r2, cs.dropWhile Char.isDigit = w :: r2 := by
                cases hdp : cs.dropWhile Char.isDigit with
                | nil => rw [hdp] at hg2; simp at hg2
                | cons x y =>
                  rw [hdp, List.head?_cons] at hg2
                  injection hg2 with h9
                  exact ⟨y, by rw [h9]⟩
              have hwnd : w.isDigit = false :=
                dropWhile_head_neg cs w (by rw [hsplit2, List.head?_cons])
              have hcs2 : cs = cs.takeWhile Char.isDigit ++ (w :: rest2) := by
                rw [← hsplit2, List.takeWhile_append_dropWhile]
              have hsc : collapseStep cs
                  = cs.takeWhile Char.isDigit ++ (w :: collapseStep rest2) := by
                conv_lhs => rw [hcs2]
                rw [collapse_keep_nonspace _ _ (fun x hx => digit_not_spc (hds x hx)),
                  collapseStep_cons, if_neg (by simp [word_not_spc hw])]
              rw [hsc]
              exact numMatchLen_block _ _ hd hds hw hwnd
          · exact numMatchLen_not_prev (by simpa using hpv)
        · exact numMatchLen_not_digit (by simpa using hd)
termination_by l _ => l.length
decreasing_by
  all_goals (simp only [dropWhile_eq_drop, List.length_drop, List.length_cons]; omega)

/-- Removing a trailing run of whitespace preserves the no-standalone-number
invariant. -/
theorem noNumSplit_truncate_spc {u sp : List Char} (hsp : ∀ x ∈ sp, isSpc x = true)
    (h : NoNumSplit none (u ++ sp)) : NoNumSplit none u := by
  intro a b hab
  have h2 := h a (b ++ sp) (by rw [← List.append_assoc, hab])
  cases b with
  | nil => rfl
  | cons x t =>
    by_cases hd : x.isDigit = true
    · by_cases hpv : notWordOpt ((a.getLast?).or none) = true
      · rw [List.cons_append] at h2
        have hC : notWordOpt ((x :: (t ++ sp)).get? (digRun (x :: (t ++ sp)))) = false := by
          by_contra hcon
          have h9 := numMatchLen_eq_some_of hd hpv (by simpa using hcon)
          rw [h9] at h2
          exact absurd h2 (by simp)
        have hds : ∀ d ∈ (x :: t).takeWhile Char.isDigit, d.isDigit = true :=
          fun d hd2 => List.mem_takeWhile_imp hd2
        cases hdw : (x :: t).dropWhile Char.isDigit with
        | cons y rest2 =>
          have hy : y.isDigit = false :=
            dropWhile_head_neg (x :: t) y (by rw [hdw, List.head?_cons])
          have hxt : x :: t = (x :: t).takeWhile Char.isDigit ++ (y :: rest2) := by
            rw [← hdw, List.takeWhile_append_dropWhile]
          have e1 : x :: (t ++ sp)
              = (x :: t).takeWhile Char.isDigit ++ (y :: (rest2 ++ sp)) := by
            conv_lhs => rw [← List.cons_append, hxt]
            rw [List.append_assoc, List.cons_append]
          rw [e1, digRun_block _ y _ hds hy, get_block] at hC
          have hw : isWordChar y = true := by simpa [notWordOpt] using hC
          apply numMatchLen_after_word
          rw [show (x :: t) = (x :: t).takeWhile Char.isDigit ++ (y :: rest2) from hxt,
            digRun_block _ y _ hds hy, get_block]
          simp [notWordOpt, hw]
        | nil =>
          have hxt : x :: t = (x :: t).takeWhile Char.isDigit := by
            conv_lhs => rw [← List.takeWhile_append_dropWhile Char.isDigit (x :: t)]
            rw [hdw, List.append_nil]
          cases sp with
          | nil =>
            rw [List.append_nil] at h2
            exact h2
          | cons s0 sp2 =>
            exfalso
            have hs0 : isSpc s0 = true := hsp s0 (List.mem_cons_self _ _)
            have e1 : x :: (t ++ sp2.cons s0)
                = (x :: t).takeWhile Char.isDigit ++ (s0 :: sp2) := by
              rw [← List.cons_append, ← hxt]
            rw [e1, digRun_block _ s0 _ hds (spc_not_digit hs0), get_block] at hC
            simp [notWordOpt, spc_not_word hs0] at hC
      · exact numMatchLen_not_prev (by simpa using hpv)
    · refine numMatchLen_not_digit (by simpa using hd)

/-- Trimming preserves the no-standalone-number invariant. -/
theorem noNumSplit_trim {l : List Char} (h : NoNumSplit none l) :
    NoNumSplit none (trimStep l) := by
  have h1 : NoNumSplit none (l.dropWhile isSpc) :=
    noNumSplit_dropWhile_spc l none none (by decide) (by decide) h
  refine noNumSplit_truncate_spc ?_ (by rw [← trim_decomp]; exact h1)
  intro x hx
  rw [List.mem_reverse] at hx
  exact List.mem_takeWhile_imp hx

/-- C10: normalization is idempotent — applying `preprocess_text` to its own
output returns that output unchanged, for every input string. -/
theorem c10_normalizer_idempotent (s : String) :
    preprocess_text (preprocess_text s) = preprocess_text s := by
  have e1 : lowerStep (preprocess_text s).data = (preprocess_text s).data :=
    mapId_of_fixed (fun c hc => toLower_eq_self (preprocess_not_upper hc))
  have hurl : NoUrl (preprocess_text s).data := by
    rw [preprocess_data]
    exact noUrl_trim (noUrl_collapse _ (noUrl_punct (noUrl_scanNum _ none
      (noUrl_scanSub_email _ (noUrl_scanSub_url _)))))
  have e2 : scanSub urlMatchLen (preprocess_text s).data = (preprocess_text s).data :=
    scanSub_id _ _ hurl
  have hat : '@' ∉ (preprocess_text s).data := by
    intro hmem
    rcases preprocess_class hmem with h | h
    · exact absurd h (by decide)
    · exact absurd h (by decide)
  have e3 : scanSub emailMatchLen (preprocess_text s).data = (preprocess_text s).data := by
    refine scanSub_id _ _ ?_
    intro i
    refine emailMatchLen_none ?_
    intro hmem
    exact hat (List.drop_subset _ _ hmem)
  have hnum : NoNumSplit none (preprocess_text s).data := by
    rw [preprocess_data]
    exact noNumSplit_trim (noNumSplit_collapse _ none
      (noNumSplit_punct (scanNum_post _ none)))
  have e4 : scanNum none (preprocess_text s).data = (preprocess_text s).data :=
    scanNum_id _ none hnum
  have e5 : punctStep (preprocess_text s).data = (preprocess_text s).data := by
    unfold punctStep
    refine mapId_of_fixed ?_
    intro c hc
    rcases preprocess_class hc with h | h
    · have hcond : (isWordChar c || isSpc c) = true := by rw [h]; rfl
      rw [if_pos hcond]
    · have hcond : (isWordChar c || isSpc c) = true := by rw [h]; decide
      rw [if_pos hcond]
  have e6 : collapseStep (preprocess_text s).data = (preprocess_text s).data :=
    collapse_id _ (fun c hc => preprocess_class hc) (preprocess_chain_spc s)
  have e7 : trimStep (preprocess_text s).data = (preprocess_text s).data :=
    trim_id _ (fun c hc => preprocess_head_spc hc) (fun c hc => preprocess_getLast_spc hc)
  have hfin : preprocess_text (preprocess_text s)
      = String.mk ((preprocess_text s).data) := by
    show String.mk (trimStep (collapseStep (punctStep (scanNum none (scanSub emailMatchLen
      (scanSub urlMatchLen (lowerStep (preprocess_text s).data))))))) = _
    rw [e1, e2, e3, e4, e5, e6, e7]
  rw [hfin]

theorem c10_normalizer_idempotent_witness :
    preprocess_text (preprocess_text "Check HTTP://A.B and Bob@Ex.com, 50 5g!!")
      = preprocess_text "Check HTTP://A.B and Bob@Ex.com, 50 5g!!" :=
  c10_normalizer_idempotent "Check HTTP://A.B and Bob@Ex.com, 50 5g!!"

end WordCloud
